import Mathlib

/-!
Shallow embedding of the quaternion algebra layer (src/common/quaternion.py)
and of the QuaterNet recurrent model (src/common/quaternet.py).

Tensors are modelled as nested lists of real numbers: a batch of quaternions
is a `List (List ℝ)` whose rows have length 4, and a `(batch, time, features)`
tensor is a `List (List (List ℝ))`.  Floating-point numbers are abstracted by
real numbers.  The GRU recurrent core (`torch.nn.GRU`, an external library
module whose parameters the spec leaves unspecified) is modelled as a function
field of the model; every theorem that needs a fact about it states that fact
as an explicit hypothesis (shape preservation), which is exactly the
contract of `nn.GRU(batch_first = True)`.
-/

noncomputable section

open List

abbrev Tensor3 := List (List (List ℝ))

abbrev HState := List (List (List ℝ))

/-- Sum of squares of the entries of a list (the squared L2 norm). -/
def sumSq (v : List ℝ) : ℝ := (v.map (fun a => a ^ 2)).sum

/-- L2 norm of a list of reals. -/
def l2norm (v : List ℝ) : ℝ := Real.sqrt (sumSq v)

/-- The default `eps` argument of `torch.nn.functional.normalize`. -/
def normEps : ℝ := 1e-12

/-- The divisor actually used by `F.normalize(v, dim = 1)`:
the norm clamped from below by `eps` (`input.norm(...).clamp_min(eps)`). -/
def normDivisor (v : List ℝ) : ℝ := max (l2norm v) normEps

/-- Row-wise semantics of `F.normalize(·, dim = 1)` as called in
`QuaterNet.forward` (quaternet.py line 141). -/
def normalizeRow (v : List ℝ) : List ℝ := v.map (fun a => a / normDivisor v)

/-- One row of `qmul` (quaternion.py lines 32-39): the code forms the outer
product `terms[i][j] = r_i * q_j` via `bmm` and combines its entries. -/
def qmul1 (q r : List ℝ) : List ℝ :=
  let t : ℕ → ℕ → ℝ := fun i j => r.getD i 0 * q.getD j 0
  [ t 0 0 - t 1 1 - t 2 2 - t 3 3,
    t 0 1 + t 1 0 - t 2 3 + t 3 2,
    t 0 2 + t 1 3 + t 2 0 - t 3 1,
    t 0 3 - t 1 2 + t 2 1 + t 3 0 ]

/-- `qmul` (quaternion.py lines 11-39).  The code views both arguments as
`(N, 4)` and computes row-wise; on the flattened representation this is a
`zipWith` of the single-quaternion product. -/
def qmul (q r : List (List ℝ)) : List (List ℝ) := List.zipWith qmul1 q r

/-- `torch.cross(a, b, dim = 1)` on one row of two `(N, 3)` tensors. -/
def cross3 (a b : List ℝ) : List ℝ :=
  [ a.getD 1 0 * b.getD 2 0 - a.getD 2 0 * b.getD 1 0,
    a.getD 2 0 * b.getD 0 0 - a.getD 0 0 * b.getD 2 0,
    a.getD 0 0 * b.getD 1 0 - a.getD 1 0 * b.getD 0 0 ]

/-- One row of `qrot` (quaternion.py lines 42-70):
`v + 2 * (q[:, :1] * uv + uuv)` with `uv = qvec × v`, `uuv = qvec × uv`. -/
def qrot1 (q v : List ℝ) : List ℝ :=
  let qvec := q.drop 1
  let uv := cross3 qvec v
  let uuv := cross3 qvec uv
  [ v.getD 0 0 + 2 * (q.getD 0 0 * uv.getD 0 0 + uuv.getD 0 0),
    v.getD 1 0 + 2 * (q.getD 0 0 * uv.getD 1 0 + uuv.getD 1 0),
    v.getD 2 0 + 2 * (q.getD 0 0 * uv.getD 2 0 + uuv.getD 2 0) ]

/-- `qrot` (quaternion.py lines 42-70) on the flattened `(N, 3)` batch. -/
def qrot (q v : List (List ℝ)) : List (List ℝ) := List.zipWith qrot1 q v

/-- `torch.clamp(x, lo, hi)`. -/
def clamp (x lo hi : ℝ) : ℝ := min (max x lo) hi

/-- Semantics of `torch.atan2 y x`. -/
def atan2 (y x : ℝ) : ℝ :=
  if 0 < x then Real.arctan (y / x)
  else if x < 0 then
    (if 0 ≤ y then Real.arctan (y / x) + Real.pi else Real.arctan (y / x) - Real.pi)
  else
    (if 0 < y then Real.pi / 2 else if y < 0 then -(Real.pi / 2) else 0)

/-- Python exception kinds raised by `qeuler`: a failed `assert`, or the bare
`raise` on an unrecognized order (a `RuntimeError`). -/
inductive PyErr where
  | assertionFailed : PyErr
  | runtimeRaise : PyErr
deriving DecidableEq

/-- The `order == 'xyz'` branch of `qeuler` (quaternion.py lines 97-100). -/
def eulerXYZ (epsilon : ℝ) (q : List ℝ) : List ℝ :=
  let q0 := q.getD 0 0
  let q1 := q.getD 1 0
  let q2 := q.getD 2 0
  let q3 := q.getD 3 0
  [ atan2 (2 * (q0 * q1 - q2 * q3)) (1 - 2 * (q1 * q1 + q2 * q2)),
    Real.arcsin (clamp (2 * (q1 * q3 + q0 * q2)) (-1 + epsilon) (1 - epsilon)),
    atan2 (2 * (q0 * q3 - q1 * q2)) (1 - 2 * (q2 * q2 + q3 * q3)) ]

/-- The `order == 'yzx'` branch of `qeuler` (quaternion.py lines 101-104). -/
def eulerYZX (epsilon : ℝ) (q : List ℝ) : List ℝ :=
  let q0 := q.getD 0 0
  let q1 := q.getD 1 0
  let q2 := q.getD 2 0
  let q3 := q.getD 3 0
  [ atan2 (2 * (q0 * q1 - q2 * q3)) (1 - 2 * (q1 * q1 + q3 * q3)),
    atan2 (2 * (q0 * q2 - q1 * q3)) (1 - 2 * (q2 * q2 + q3 * q3)),
    Real.arcsin (clamp (2 * (q1 * q2 + q0 * q3)) (-1 + epsilon) (1 - epsilon)) ]

/-- The `order == 'zxy'` branch of `qeuler` (quaternion.py lines 105-108). -/
def eulerZXY (epsilon : ℝ) (q : List ℝ) : List ℝ :=
  let q0 := q.getD 0 0
  let q1 := q.getD 1 0
  let q2 := q.getD 2 0
  let q3 := q.getD 3 0
  [ Real.arcsin (clamp (2 * (q0 * q1 + q2 * q3)) (-1 + epsilon) (1 - epsilon)),
    atan2 (2 * (q0 * q2 - q1 * q3)) (1 - 2 * (q1 * q1 + q2 * q2)),
    atan2 (2 * (q0 * q3 - q1 * q2)) (1 - 2 * (q1 * q1 + q3 * q3)) ]

/-- The `order == 'xzy'` branch of `qeuler` (quaternion.py lines 109-112). -/
def eulerXZY (epsilon : ℝ) (q : List ℝ) : List ℝ :=
  let q0 := q.getD 0 0
  let q1 := q.getD 1 0
  let q2 := q.getD 2 0
  let q3 := q.getD 3 0
  [ atan2 (2 * (q0 * q1 + q2 * q3)) (1 - 2 * (q1 * q1 + q3 * q3)),
    atan2 (2 * (q0 * q2 + q1 * q3)) (1 - 2 * (q2 * q2 + q3 * q3)),
    Real.arcsin (clamp (2 * (q0 * q3 - q1 * q2)) (-1 + epsilon) (1 - epsilon)) ]

/-- The `order == 'yxz'` branch of `qeuler` (quaternion.py lines 113-116). -/
def eulerYXZ (epsilon : ℝ) (q : List ℝ) : List ℝ :=
  let q0 := q.getD 0 0
  let q1 := q.getD 1 0
  let q2 := q.getD 2 0
  let q3 := q.getD 3 0
  [ Real.arcsin (clamp (2 * (q0 * q1 - q2 * q3)) (-1 + epsilon) (1 - epsilon)),
    atan2 (2 * (q1 * q3 + q0 * q2)) (1 - 2 * (q1 * q1 + q2 * q2)),
    atan2 (2 * (q1 * q2 + q0 * q3)) (1 - 2 * (q1 * q1 + q3 * q3)) ]

/-- The `order == 'zyx'` branch of `qeuler` (quaternion.py lines 117-120). -/
def eulerZYX (epsilon : ℝ) (q : List ℝ) : List ℝ :=
  let q0 := q.getD 0 0
  let q1 := q.getD 1 0
  let q2 := q.getD 2 0
  let q3 := q.getD 3 0
  [ atan2 (2 * (q0 * q1 + q2 * q3)) (1 - 2 * (q1 * q1 + q2 * q2)),
    Real.arcsin (clamp (2 * (q0 * q2 - q1 * q3)) (-1 + epsilon) (1 - epsilon)),
    atan2 (2 * (q0 * q3 + q1 * q2)) (1 - 2 * (q2 * q2 + q3 * q3)) ]

/-- `qeuler` (quaternion.py lines 73-124).  The function first asserts
`q.shape[-1] == 4` (an `AssertionError` on violation), then dispatches on the
order string; an unrecognized order reaches the bare `raise` (a
`RuntimeError`), producing no output. -/
def qeuler (q : List (List ℝ)) (order : String) (epsilon : ℝ) :
    Except PyErr (List (List ℝ)) :=
  if ¬ (q.all (fun r => r.length == 4)) then .error .assertionFailed
  else if order = "xyz" then .ok (q.map (eulerXYZ epsilon))
  else if order = "yzx" then .ok (q.map (eulerYZX epsilon))
  else if order = "zxy" then .ok (q.map (eulerZXY epsilon))
  else if order = "xzy" then .ok (q.map (eulerXZY epsilon))
  else if order = "yxz" then .ok (q.map (eulerYXZ epsilon))
  else if order = "zyx" then .ok (q.map (eulerZYX epsilon))
  else .error .runtimeRaise

/-! ## The QuaterNet model (src/common/quaternet.py) -/

/-- A `torch.nn.Linear` layer: a list of weight rows and a bias vector;
`y_j = W_j · v + b_j`. -/
structure Linear where
  W : List (List ℝ)
  b : List ℝ

/-- Dot product of two lists (zipped pointwise, summed). -/
def dot (a b : List ℝ) : ℝ := (List.zipWith (fun p q => p * q) a b).sum

/-- Application of a linear layer to one feature row. -/
def Linear.apply (f : Linear) (v : List ℝ) : List ℝ :=
  (f.W.zip f.b).map (fun wb => dot wb.1 v + wb.2)

/-- `nn.LeakyReLU(0.05)` on one scalar. -/
def leakyRelu (x : ℝ) : ℝ := if x < 0 then 0.05 * x else x

/-- The sizes fixed by `QuaterNet.__init__` (quaternet.py lines 32-85):
`fc1_size = fc2_size = 30` when there are controls (otherwise no control
block and `fc2_size = 0`), `h_size = 1000`, `rnn_layers = 2`, the GRU input
width `4 * num_joints + num_outputs + fc2_size`, and the output layer
`fc : h_size → 4 * num_joints + num_outputs`. -/
structure QuaterNetConfig where
  numJoints : ℕ
  numOutputs : ℕ
  numControls : ℕ
  modelVelocities : Bool
  fc1Size : ℕ
  fc2Size : ℕ
  hiddenSize : ℕ
  rnnLayers : ℕ
  rnnInputSize : ℕ
  fcOutSize : ℕ

/-- `QuaterNet.__init__` at the level of configured sizes. -/
def quaterNetInit (numJoints numOutputs numControls : ℕ)
    (modelVelocities : Bool) : QuaterNetConfig :=
  let fc1_size : ℕ := if 0 < numControls then 30 else 0
  let fc2_size : ℕ := if 0 < numControls then 30 else 0
  let h_size : ℕ := 1000
  let rnn_layers : ℕ := 2
  { numJoints := numJoints
    numOutputs := numOutputs
    numControls := numControls
    modelVelocities := modelVelocities
    fc1Size := fc1_size
    fc2Size := fc2_size
    hiddenSize := h_size
    rnnLayers := rnn_layers
    rnnInputSize := 4 * numJoints + numOutputs + fc2_size
    fcOutSize := 4 * numJoints + numOutputs }

/-- The QuaterNet module state used by `forward`: the configuration scalars,
the parameters of the layers the forward pass applies, and the recurrent
core `rnn` (the external `nn.GRU`, modelled as an abstract function whose
shape behaviour theorems assume explicitly). -/
structure QuaterNet where
  numJoints : ℕ
  numOutputs : ℕ
  numControls : ℕ
  modelVelocities : Bool
  fc1 : Linear
  fc2 : Linear
  rnn : Tensor3 → HState → Tensor3 × HState
  h0 : HState
  fc : Linear

/-- `self.h0.expand(-1, batch, -1)`: the learned initial state of shape
`(layers, 1, hidden)` broadcast across the batch dimension. -/
def expandH (h0 : HState) (batch : ℕ) : HState :=
  h0.map (fun layer => List.replicate batch (layer.headD []))

/-- The control-feature block of `forward` (quaternet.py lines 111-115):
when `num_controls > 0`, the trailing `num_controls` channels are passed
through `fc1`, `fc2` with leaky ReLUs and re-concatenated behind the
untouched rotation/output channels. -/
def controlsStage (m : QuaterNet) (x : Tensor3) : Tensor3 :=
  if 0 < m.numControls then
    x.map (fun seq => seq.map (fun row =>
      let controls := row.drop (4 * m.numJoints + m.numOutputs)
      let c1 := (m.fc1.apply controls).map leakyRelu
      let c2 := (m.fc2.apply c1).map leakyRelu
      row.take (4 * m.numJoints + m.numOutputs) ++ c2))
  else x

/-- The projection step (quaternet.py lines 125-129): with `return_all` the
output layer is applied to every timestep, otherwise to `x[:, -1:]` only. -/
def projStage (m : QuaterNet) (rnnOut : Tensor3) (return_all : Bool) : Tensor3 :=
  if return_all then rnnOut.map (fun seq => seq.map m.fc.apply)
  else rnnOut.map (fun seq => (seq.drop (seq.length - 1)).map m.fc.apply)

/-- `x_orig[:, -1:]` slicing (quaternet.py line 129): the original input
restricted to its final timestep when `return_all` is false. -/
def origSliced (x : Tensor3) (return_all : Bool) : Tensor3 :=
  if return_all then x else x.map (fun seq => seq.drop (seq.length - 1))

/-- `l.take (4*J)` on every row: the rotation block
`x[:, :, :4*num_joints]`. -/
def preBlock (numJoints : ℕ) (t : Tensor3) : Tensor3 :=
  t.map (fun seq => seq.map (fun row => row.take (4 * numJoints)))

/-- Split a flat list into consecutive chunks of length `n`
(the semantics of `view(-1, n)` on a contiguous tensor). -/
def chunks (n : ℕ) (l : List α) : List (List α) :=
  if h : l.isEmpty ∨ n = 0 then (if l.isEmpty then [] else [l])
  else l.take n :: chunks n (l.drop n)
  termination_by l.length
  decreasing_by
    simp only [not_or, List.isEmpty_iff] at h
    have h1 : 0 < l.length := List.length_pos.mpr h.1
    have h2 : 0 < n := Nat.pos_of_ne_zero h.2
    simp [List.length_drop]
    omega

/-- `t.view(-1, 4)` on a `(batch, time, 4*J)` tensor: flatten all leading
dimensions and regroup the scalars in rows of four. -/
def flatQ (t : Tensor3) : List (List ℝ) := chunks 4 t.flatten.flatten

/-- `view` back to a `(batch, time, feat)` shape: regroup a flat scalar list
into rows of `feat` entries and batches of `time` rows. -/
def view3 (time feat : ℕ) (flat : List ℝ) : Tensor3 :=
  chunks time (chunks feat flat)

/-- The hidden state actually fed to the GRU: the caller's state when
present, otherwise the learned initial state broadcast across the batch
(quaternet.py lines 119-120). -/
def hInOf (m : QuaterNet) (x : Tensor3) (h : Option HState) : HState :=
  match h with
  | some hh => hh
  | none => expandH m.h0 x.length

/-- The projected output of the network: controls preprocessing, GRU, then
the output layer on all (or only the last) timesteps (quaternet.py
lines 111-129). -/
def projOf (m : QuaterNet) (x : Tensor3) (h : Option HState)
    (return_all : Bool) : Tensor3 :=
  projStage m (m.rnn (controlsStage m x) (hInOf m x h)).1 return_all

/-- The composed pre-normalization quaternion batch of `forward`, viewed as
`(-1, 4)`: the projected rotation block, composed with the input rotation
block via `qmul` in velocity mode (quaternet.py lines 132-138). -/
def composedFlat (m : QuaterNet) (x : Tensor3) (h : Option HState)
    (return_all : Bool) : List (List ℝ) :=
  let pre := preBlock m.numJoints (projOf m x h return_all)
  if m.modelVelocities then
    qmul (flatQ pre) (flatQ (preBlock m.numJoints (origSliced x return_all)))
  else flatQ pre

/-- `QuaterNet.forward` (quaternet.py lines 89-154).  Returns the output
tensor, the updated hidden state, and (when `return_prenorm` is set) the
pre-normalization rotation block. -/
def forward (m : QuaterNet) (x : Tensor3) (h : Option HState)
    (return_prenorm return_all : Bool) : Tensor3 × HState × Option Tensor3 :=
  let proj := projOf m x h return_all
  let pre := preBlock m.numJoints proj
  let normFlat := (composedFlat m x h return_all).map normalizeRow
  let normalized := view3 (pre.headD []).length (4 * m.numJoints) normFlat.flatten
  let out := if 0 < m.numOutputs then
      List.zipWith (fun nb pb =>
        List.zipWith (fun nr pr => nr ++ pr.drop (4 * m.numJoints)) nb pb)
        normalized proj
    else normalized
  (out, (m.rnn (controlsStage m x) (hInOf m x h)).2,
    if return_prenorm then some pre else none)

/-- Proof-side: one `(·, 4*J)` frame row split in quaternions, each
renormalized, re-concatenated (the absolute-rotation pipeline on one
frame). -/
def rowNorm (ra : List ℝ) : List ℝ :=
  ((chunks 4 ra).map normalizeRow).flatten

/-- Proof-side: one frame row composed joint-wise with the matching input
frame row via `qmul1`, then renormalized (the velocity pipeline on one
frame). -/
def rowNormV (ra rb : List ℝ) : List ℝ :=
  ((List.zipWith qmul1 (chunks 4 ra) (chunks 4 rb)).map normalizeRow).flatten

/-- Proof-side reformulation of the rotation pipeline of `forward` (flatten
to `(-1, 4)`, optional velocity composition via `qmul`, renormalization,
reshape back): the same computation written as a per-frame map.  The
theorem `rot_pipeline_nested` proves it equal to the flat pipeline. -/
def nestedRot (vel : Bool) (pre preO : Tensor3) : Tensor3 :=
  if vel then
    List.zipWith (fun sa sb => List.zipWith rowNormV sa sb) pre preO
  else
    pre.map (fun sa => sa.map rowNorm)

/-! ## Concrete instances used to evaluate the embedding -/

/-- A recurrent core that returns its input unchanged (used to evaluate
`forward` on concrete data; it satisfies the GRU shape contract). -/
def idRnn : Tensor3 → HState → Tensor3 × HState := fun a h => (a, h)

/-- A recurrent core that maps every frame to an empty feature row (shape
contract holds; the output layer width does not depend on its input). -/
def rnnStub : Tensor3 → HState → Tensor3 × HState :=
  fun a h => (a.map (fun s => s.map (fun _ => ([] : List ℝ))), h)

/-- One joint, no extra outputs/controls, absolute-rotation mode, output
layer identically zero: the projected rotation block degenerates to the
zero 4-vector. -/
def cmAbsZero : QuaterNet :=
  { numJoints := 1, numOutputs := 0, numControls := 0, modelVelocities := false
    fc1 := ⟨[], []⟩, fc2 := ⟨[], []⟩, rnn := idRnn, h0 := []
    fc := ⟨[[0, 0, 0, 0], [0, 0, 0, 0], [0, 0, 0, 0], [0, 0, 0, 0]], [0, 0, 0, 0]⟩ }

/-- One joint, absolute-rotation mode, output layer with zero weights and
bias `(1, 0, 0, 0)`: the projected rotation block is the identity
quaternion. -/
def cmAbsUnit : QuaterNet :=
  { numJoints := 1, numOutputs := 0, numControls := 0, modelVelocities := false
    fc1 := ⟨[], []⟩, fc2 := ⟨[], []⟩, rnn := idRnn, h0 := []
    fc := ⟨[[0, 0, 0, 0], [0, 0, 0, 0], [0, 0, 0, 0], [0, 0, 0, 0]], [1, 0, 0, 0]⟩ }

/-- One joint, velocity mode, output layer with zero weights and bias
`(0, 1, 0, 0)`: the predicted delta quaternion is `(0, 1, 0, 0)`. -/
def cmVelUnit : QuaterNet :=
  { numJoints := 1, numOutputs := 0, numControls := 0, modelVelocities := true
    fc1 := ⟨[], []⟩, fc2 := ⟨[], []⟩, rnn := idRnn, h0 := []
    fc := ⟨[[0, 0, 0, 0], [0, 0, 0, 0], [0, 0, 0, 0], [0, 0, 0, 0]], [0, 1, 0, 0]⟩ }

/-- One joint, velocity mode, output layer identically zero: the predicted
delta quaternion degenerates to the zero 4-vector. -/
def cmVelZero : QuaterNet :=
  { numJoints := 1, numOutputs := 0, numControls := 0, modelVelocities := true
    fc1 := ⟨[], []⟩, fc2 := ⟨[], []⟩, rnn := idRnn, h0 := []
    fc := ⟨[[0, 0, 0, 0], [0, 0, 0, 0], [0, 0, 0, 0], [0, 0, 0, 0]], [0, 0, 0, 0]⟩ }

/-- A batch of one sequence of one frame holding the identity quaternion. -/
def cxId : Tensor3 := [[[1, 0, 0, 0]]]

/-- A model with the shape configuration of the spec's shape contract:
`J = 32`, `O = 2`, `C = 5` (weights immaterial for shapes). -/
def cm6 : QuaterNet :=
  { numJoints := 32, numOutputs := 2, numControls := 5, modelVelocities := false
    fc1 := ⟨List.replicate 30 (List.replicate 5 0), List.replicate 30 0⟩
    fc2 := ⟨List.replicate 30 (List.replicate 30 0), List.replicate 30 0⟩
    rnn := rnnStub, h0 := []
    fc := ⟨List.replicate 130 ([] : List ℝ), List.replicate 130 0⟩ }

/-- A `(4, 10, 135)` input batch of zeros. -/
def cx6 : Tensor3 :=
  List.replicate 4 (List.replicate 10 (List.replicate 135 (0 : ℝ)))

/-- Embed a length-4 row `(w, x, y, z)` as a Mathlib quaternion (used only
to state and prove algebraic properties of `qmul1` / `qrot1`). -/
def toQ (a : List ℝ) : Quaternion ℝ :=
  ⟨a.getD 0 0, a.getD 1 0, a.getD 2 0, a.getD 3 0⟩

/-- Embed a 3-vector row as a pure quaternion. -/
def vecQ (v : List ℝ) : Quaternion ℝ :=
  ⟨0, v.getD 0 0, v.getD 1 0, v.getD 2 0⟩

/-! ## Basic norm lemmas -/

theorem sumSq_nil : sumSq [] = 0 := rfl

theorem sumSq_cons (a : ℝ) (v : List ℝ) : sumSq (a :: v) = a ^ 2 + sumSq v := by
  simp [sumSq]

theorem sumSq_nonneg (v : List ℝ) : 0 ≤ sumSq v := by
  induction v with
  | nil => simp [sumSq_nil]
  | cons a t ih => rw [sumSq_cons]; positivity

theorem l2norm_sq (v : List ℝ) : l2norm v ^ 2 = sumSq v := by
  rw [l2norm, Real.sq_sqrt (sumSq_nonneg v)]

theorem l2norm_nonneg (v : List ℝ) : 0 ≤ l2norm v := Real.sqrt_nonneg _

theorem normEps_pos : (0 : ℝ) < normEps := by norm_num [normEps]

theorem sumSq_map_div (v : List ℝ) (c : ℝ) :
    sumSq (v.map (fun a => a / c)) = sumSq v / c ^ 2 := by
  induction v with
  | nil => simp [sumSq_nil]
  | cons a t ih => simp only [List.map_cons, sumSq_cons, ih, div_pow, add_div]

/-- Any row whose L2 norm is at least the `eps` clamp is renormalized to an
exactly unit row. -/
theorem normalizeRow_sumSq {v : List ℝ} (h : normEps ≤ l2norm v) :
    sumSq (normalizeRow v) = 1 := by
  have hpos : 0 < l2norm v := lt_of_lt_of_le normEps_pos h
  have hS : sumSq v ≠ 0 := by
    have := l2norm_sq v
    nlinarith
  rw [normalizeRow, normDivisor, max_eq_left h, sumSq_map_div, l2norm_sq,
    div_self hS]

theorem normalizeRow_length (v : List ℝ) :
    (normalizeRow v).length = v.length := by simp [normalizeRow]

/-! ## Lemmas about `chunks` (the `view` reshape) -/

theorem chunks_nil {α : Type} (n : ℕ) : chunks n ([] : List α) = [] := by
  rw [chunks]
  simp

theorem chunks_cons {α : Type} (n : ℕ) (l : List α) (h1 : l ≠ []) (h2 : n ≠ 0) :
    chunks n l = l.take n :: chunks n (l.drop n) := by
  rw [chunks]
  simp [h1, h2]

theorem flatten_chunks {α : Type} (n : ℕ) (hn : n ≠ 0) (l : List α) :
    (chunks n l).flatten = l := by
  by_cases h : l = []
  · subst h
    rw [chunks_nil]
    rfl
  · rw [chunks_cons n l h hn, List.flatten_cons, flatten_chunks n hn (l.drop n),
      List.take_append_drop]
  termination_by l.length
  decreasing_by
    have h1 : 0 < l.length := List.length_pos.mpr h
    have h2 : 0 < n := Nat.pos_of_ne_zero hn
    simp [List.length_drop]
    omega

theorem chunks_append {α : Type} (n : ℕ) (hn : n ≠ 0) (a b : List α)
    (hd : n ∣ a.length) : chunks n (a ++ b) = chunks n a ++ chunks n b := by
  by_cases ha : a = []
  · subst ha
    simp [chunks_nil]
  · have hna : n ≤ a.length := Nat.le_of_dvd (List.length_pos.mpr ha) hd
    have hab : a ++ b ≠ [] := by simp [ha]
    rw [chunks_cons n (a ++ b) hab hn, chunks_cons n a ha hn]
    have ht : (a ++ b).take n = a.take n := by
      rw [List.take_append_eq_append_take, Nat.sub_eq_zero_of_le hna,
        List.take_zero, List.append_nil]
    have hdr : (a ++ b).drop n = a.drop n ++ b := by
      rw [List.drop_append_eq_append_drop, Nat.sub_eq_zero_of_le hna,
        List.drop_zero]
    rw [ht, hdr, chunks_append n hn (a.drop n) b
      (by rw [List.length_drop]; exact Nat.dvd_sub' hd dvd_rfl)]
    rfl
  termination_by a.length
  decreasing_by
    have h1 : 0 < a.length := List.length_pos.mpr ha
    have h2 : 0 < n := Nat.pos_of_ne_zero hn
    simp [List.length_drop]
    omega

theorem chunks_flatten_of_dvd {α : Type} (n : ℕ) (hn : n ≠ 0)
    (L : List (List α)) (h : ∀ l ∈ L, n ∣ l.length) :
    chunks n L.flatten = (L.map (chunks n)).flatten := by
  induction L with
  | nil => simp [chunks_nil]
  | cons r rs ih =>
    rw [List.flatten_cons, chunks_append n hn r rs.flatten (h r (by simp)),
      List.map_cons, List.flatten_cons, ih (fun l hl => h l (by simp [hl]))]

theorem chunks_self {α : Type} {n : ℕ} (hn : n ≠ 0) {l : List α}
    (h : l.length = n) : chunks n l = [l] := by
  have hl : l ≠ [] := by
    intro e
    subst e
    simp at h
    omega
  rw [chunks_cons n l hl hn, ← h, List.take_length, List.drop_length, chunks_nil]

theorem chunks_flatten_uniform {α : Type} (n : ℕ) (hn : n ≠ 0)
    (L : List (List α)) (h : ∀ l ∈ L, l.length = n) :
    chunks n L.flatten = L := by
  induction L with
  | nil => simp [chunks_nil]
  | cons r rs ih =>
    rw [List.flatten_cons, chunks_append n hn r rs.flatten
        (by rw [h r (by simp)]),
      chunks_self hn (h r (by simp)), ih (fun l hl => h l (by simp [hl]))]
    rfl

theorem length_flatten_uniform {α : Type} {L : List (List α)} {n : ℕ}
    (h : ∀ l ∈ L, l.length = n) : L.flatten.length = L.length * n := by
  induction L with
  | nil => simp
  | cons r rs ih =>
    rw [List.flatten_cons, List.length_append, h r (by simp),
      ih (fun l hl => h l (by simp [hl])), List.length_cons]
    ring

theorem length_chunks_uniform {α : Type} {n : ℕ} (hn : n ≠ 0) :
    ∀ {k : ℕ} {l : List α}, l.length = k * n → (chunks n l).length = k := by
  intro k
  induction k with
  | zero =>
    intro l hl
    have : l = [] := List.length_eq_zero.mp (by omega)
    subst this
    rw [chunks_nil]
    rfl
  | succ k ih =>
    intro l hl
    have hne : l ≠ [] := by
      intro e
      subst e
      simp at hl
      have := Nat.pos_of_ne_zero hn
      omega
    rw [chunks_cons n l hne hn, List.length_cons,
      ih (by rw [List.length_drop, hl]; ring_nf; omega)]

theorem mem_chunks_length {α : Type} (n : ℕ) (hn : n ≠ 0) (l : List α)
    (hd : n ∣ l.length) : ∀ c ∈ chunks n l, c.length = n := by
  by_cases hl : l = []
  · subst hl
    rw [chunks_nil]
    intro c hc
    simp at hc
  · have hna : n ≤ l.length := Nat.le_of_dvd (List.length_pos.mpr hl) hd
    rw [chunks_cons n l hl hn]
    intro c hc
    rcases List.mem_cons.mp hc with h | h
    · rw [h, List.length_take]
      omega
    · exact mem_chunks_length n hn (l.drop n)
        (by rw [List.length_drop]; exact Nat.dvd_sub' hd dvd_rfl) c h
  termination_by l.length
  decreasing_by
    have h1 : 0 < l.length := List.length_pos.mpr hl
    have h2 : 0 < n := Nat.pos_of_ne_zero hn
    simp [List.length_drop]
    omega

theorem zipWith_flatten {α β γ : Type} (f : α → β → γ) (A : List (List α))
    (B : List (List β)) (h : A.map List.length = B.map List.length) :
    List.zipWith f A.flatten B.flatten =
      (List.zipWith (List.zipWith f) A B).flatten := by
  induction A generalizing B with
  | nil =>
    cases B with
    | nil => rfl
    | cons b bs => simp at h
  | cons a as ih =>
    cases B with
    | nil => simp at h
    | cons b bs =>
      simp only [List.map_cons, List.cons.injEq] at h
      rw [List.flatten_cons, List.flatten_cons,
        List.zipWith_append _ _ _ _ _ h.1, List.zipWith_cons_cons,
        List.flatten_cons, ih bs h.2]

theorem getElem?_flatten_uniform {α : Type} {L : List (List α)} {n : ℕ}
    (h : ∀ l ∈ L, l.length = n) {i j : ℕ} (hj : j < n) :
    L.flatten[i * n + j]? = L[i]?.bind (fun l => l[j]?) := by
  induction L generalizing i with
  | nil => simp
  | cons r rs ih =>
    cases i with
    | zero =>
      rw [List.flatten_cons, Nat.zero_mul, Nat.zero_add, List.getElem?_append]
      rw [if_pos (by rw [h r (by simp)]; exact hj)]
      simp
    | succ i =>
      have harith : (i + 1) * n + j = r.length + (i * n + j) := by
        rw [h r (by simp)]
        ring
      rw [List.flatten_cons, harith,
        List.getElem?_append_right (Nat.le_add_right _ _),
        Nat.add_sub_cancel_left, ih (fun l hl => h l (by simp [hl]))]
      simp

/-! ## Bridging the flat `view(-1, 4)` pipeline to the per-frame map -/

theorem mem_zipWith_imp {α β γ : Type} {f : α → β → γ} {A : List α}
    {B : List β} {c : γ} (hc : c ∈ List.zipWith f A B) :
    ∃ a b, a ∈ A ∧ b ∈ B ∧ c = f a b := by
  rw [List.mem_iff_getElem] at hc
  obtain ⟨i, hi, hget⟩ := hc
  rw [List.getElem_zipWith] at hget
  have hiA : i < A.length := by
    rw [List.length_zipWith] at hi
    omega
  have hiB : i < B.length := by
    rw [List.length_zipWith] at hi
    omega
  exact ⟨A[i], B[i], List.getElem_mem hiA, List.getElem_mem hiB, hget.symm⟩

theorem flatQ_eq {J : ℕ} {pre : Tensor3}
    (hr : ∀ s ∈ pre, ∀ r ∈ s, r.length = 4 * J) :
    flatQ pre = ((pre.flatten).map (chunks 4)).flatten := by
  rw [flatQ, chunks_flatten_of_dvd 4 (by norm_num) pre.flatten ?_]
  intro r hrm
  rw [List.mem_flatten] at hrm
  obtain ⟨s, hs, hrs⟩ := hrm
  rw [hr s hs r hrs]
  exact ⟨J, rfl⟩

theorem chunks4_length {r : List ℝ} {J : ℕ} (h : r.length = 4 * J) :
    (chunks 4 r).length = J :=
  length_chunks_uniform (by norm_num) (by rw [h]; ring)

theorem chunks4_mem_length {r : List ℝ} {J : ℕ} (h : r.length = 4 * J) :
    ∀ c ∈ chunks 4 r, c.length = 4 :=
  mem_chunks_length 4 (by norm_num) r (by rw [h]; exact ⟨J, rfl⟩)

theorem rowNorm_length {r : List ℝ} {J : ℕ} (h : r.length = 4 * J) :
    (rowNorm r).length = 4 * J := by
  have hmem : ∀ l ∈ (chunks 4 r).map normalizeRow, l.length = 4 := by
    intro l hl
    rw [List.mem_map] at hl
    obtain ⟨c, hc, rfl⟩ := hl
    rw [normalizeRow_length]
    exact chunks4_mem_length h c hc
  rw [rowNorm, length_flatten_uniform hmem, List.length_map, chunks4_length h]
  ring

theorem qmul1_length (q r : List ℝ) : (qmul1 q r).length = 4 := rfl

theorem rowNormV_length {ra rb : List ℝ} {J : ℕ} (ha : ra.length = 4 * J)
    (hb : rb.length = 4 * J) : (rowNormV ra rb).length = 4 * J := by
  have hmem : ∀ l ∈ (List.zipWith qmul1 (chunks 4 ra) (chunks 4 rb)).map
      normalizeRow, l.length = 4 := by
    intro l hl
    rw [List.mem_map] at hl
    obtain ⟨c, hc, rfl⟩ := hl
    obtain ⟨a, b, _, _, rfl⟩ := mem_zipWith_imp hc
    rw [normalizeRow_length, qmul1_length]
  rw [rowNormV, length_flatten_uniform hmem, List.length_map,
    List.length_zipWith, chunks4_length ha, chunks4_length hb, min_self]
  ring

theorem map_length_replicate {α : Type} {L : List (List α)} {n : ℕ}
    (h : ∀ s ∈ L, s.length = n) :
    L.map List.length = List.replicate L.length n := by
  rw [List.eq_replicate_iff]
  refine ⟨by rw [List.length_map], ?_⟩
  intro b hb
  rw [List.mem_map] at hb
  obtain ⟨s, hs, rfl⟩ := hb
  exact h s hs

/-- The flat scalars of the absolute-mode pipeline, regrouped per frame. -/
theorem scalars_abs {J : ℕ} (pre : Tensor3)
    (hr : ∀ s ∈ pre, ∀ r ∈ s, r.length = 4 * J) :
    ((flatQ pre).map normalizeRow).flatten =
      ((pre.map (fun sa => sa.map rowNorm)).flatten).flatten := by
  rw [flatQ_eq hr, List.map_flatten, List.map_map, List.flatten_flatten,
    List.map_map]
  have : (List.flatten ∘ List.map normalizeRow ∘ chunks 4) = rowNorm := by
    funext r
    rfl
  rw [this, List.map_flatten]

/-- The flat scalars of the velocity-mode pipeline, regrouped per frame. -/
theorem scalars_vel {J : ℕ} {T' : ℕ} (pre preO : Tensor3)
    (hpreT : ∀ s ∈ pre, s.length = T') (hpreOT : ∀ s ∈ preO, s.length = T')
    (hlen : pre.length = preO.length)
    (hprer : ∀ s ∈ pre, ∀ r ∈ s, r.length = 4 * J)
    (hpreOr : ∀ s ∈ preO, ∀ r ∈ s, r.length = 4 * J) :
    ((qmul (flatQ pre) (flatQ preO)).map normalizeRow).flatten =
      ((List.zipWith (fun sa sb => List.zipWith rowNormV sa sb) pre
        preO).flatten).flatten := by
  have hfr : ∀ r ∈ pre.flatten, r.length = 4 * J := by
    intro r hrm
    rw [List.mem_flatten] at hrm
    obtain ⟨s, hs, hrs⟩ := hrm
    exact hprer s hs r hrs
  have hfrO : ∀ r ∈ preO.flatten, r.length = 4 * J := by
    intro r hrm
    rw [List.mem_flatten] at hrm
    obtain ⟨s, hs, hrs⟩ := hrm
    exact hpreOr s hs r hrs
  have hflen : pre.flatten.length = preO.flatten.length := by
    rw [length_flatten_uniform hpreT, length_flatten_uniform hpreOT, hlen]
  have hchunkmap : (pre.flatten.map (chunks 4)).map List.length =
      (preO.flatten.map (chunks 4)).map List.length := by
    rw [List.map_map, List.map_map]
    have h1 : pre.flatten.map (List.length ∘ chunks 4) =
        List.replicate pre.flatten.length J := by
      rw [List.eq_replicate_iff]
      refine ⟨by rw [List.length_map], ?_⟩
      intro b hb
      rw [List.mem_map] at hb
      obtain ⟨r, hrm, rfl⟩ := hb
      exact chunks4_length (hfr r hrm)
    have h2 : preO.flatten.map (List.length ∘ chunks 4) =
        List.replicate preO.flatten.length J := by
      rw [List.eq_replicate_iff]
      refine ⟨by rw [List.length_map], ?_⟩
      intro b hb
      rw [List.mem_map] at hb
      obtain ⟨r, hrm, rfl⟩ := hb
      exact chunks4_length (hfrO r hrm)
    rw [h1, h2, hflen]
  have hseqmap : pre.map List.length = preO.map List.length := by
    rw [map_length_replicate hpreT, map_length_replicate hpreOT, hlen]
  rw [qmul, flatQ_eq hprer, flatQ_eq hpreOr,
    zipWith_flatten qmul1 _ _ hchunkmap, List.zipWith_map,
    List.map_flatten, List.map_zipWith, List.flatten_flatten,
    List.map_zipWith]
  have : (fun (x y : List ℝ) =>
      ((List.zipWith qmul1 (chunks 4 x) (chunks 4 y)).map
        normalizeRow).flatten) = rowNormV := by
    funext a b
    rfl
  rw [this, zipWith_flatten rowNormV _ _ hseqmap]

/-- The flat pipeline of `forward` (flatten, optional `qmul` composition,
renormalize, reshape back to `(batch, time, 4*J)`) computes the per-frame
nested map `nestedRot`. -/
theorem rot_pipeline_nested (vel : Bool) {J : ℕ} (hJ : J ≠ 0)
    (pre preO : Tensor3) {T' : ℕ} (hT' : T' ≠ 0)
    (hpreT : ∀ s ∈ pre, s.length = T') (hpreOT : ∀ s ∈ preO, s.length = T')
    (hlen : pre.length = preO.length)
    (hprer : ∀ s ∈ pre, ∀ r ∈ s, r.length = 4 * J)
    (hpreOr : ∀ s ∈ preO, ∀ r ∈ s, r.length = 4 * J) :
    view3 T' (4 * J)
        (((if vel then qmul (flatQ pre) (flatQ preO) else flatQ pre).map
          normalizeRow).flatten) = nestedRot vel pre preO := by
  have h4J : 4 * J ≠ 0 := by omega
  cases vel with
  | false =>
    rw [if_neg (by simp), nestedRot, if_neg (by simp), scalars_abs pre hprer]
    set N : Tensor3 := pre.map (fun sa => sa.map rowNorm) with hN
    have hNrows : ∀ r ∈ N.flatten, r.length = 4 * J := by
      intro r hrm
      rw [List.mem_flatten] at hrm
      obtain ⟨s, hs, hrs⟩ := hrm
      rw [hN, List.mem_map] at hs
      obtain ⟨s0, hs0, rfl⟩ := hs
      rw [List.mem_map] at hrs
      obtain ⟨r0, hr0, rfl⟩ := hrs
      exact rowNorm_length (hprer s0 hs0 r0 hr0)
    have hNseq : ∀ s ∈ N, s.length = T' := by
      intro s hs
      rw [hN, List.mem_map] at hs
      obtain ⟨s0, hs0, rfl⟩ := hs
      rw [List.length_map]
      exact hpreT s0 hs0
    rw [view3, chunks_flatten_uniform _ h4J _ hNrows,
      chunks_flatten_uniform _ hT' _ hNseq]
  | true =>
    rw [if_pos rfl, nestedRot, if_pos rfl,
      scalars_vel pre preO hpreT hpreOT hlen hprer hpreOr]
    set M : Tensor3 :=
      List.zipWith (fun sa sb => List.zipWith rowNormV sa sb) pre preO with hM
    have hMrows : ∀ r ∈ M.flatten, r.length = 4 * J := by
      intro r hrm
      rw [List.mem_flatten] at hrm
      obtain ⟨s, hs, hrs⟩ := hrm
      rw [hM] at hs
      obtain ⟨sa, sb, hsa, hsb, rfl⟩ := mem_zipWith_imp hs
      obtain ⟨ra, rb, hra, hrb, rfl⟩ := mem_zipWith_imp hrs
      exact rowNormV_length (hprer sa hsa ra hra) (hpreOr sb hsb rb hrb)
    have hMseq : ∀ s ∈ M, s.length = T' := by
      intro s hs
      rw [hM] at hs
      obtain ⟨sa, sb, hsa, hsb, rfl⟩ := mem_zipWith_imp hs
      rw [List.length_zipWith, hpreT sa hsa, hpreOT sb hsb, min_self]
    rw [view3, chunks_flatten_uniform _ h4J _ hMrows,
      chunks_flatten_uniform _ hT' _ hMseq]

/-! ## Shape lemmas for the forward stages -/

theorem Linear.apply_length (f : Linear) (v : List ℝ) :
    (f.apply v).length = min f.W.length f.b.length := by
  simp [Linear.apply]

theorem controlsStage_lengths (m : QuaterNet) (x : Tensor3) :
    (controlsStage m x).map List.length = x.map List.length := by
  rw [controlsStage]
  split
  · simp
  · rfl

theorem map_length_eq_mem {α β : Type} {A : List (List α)} {B : List (List β)}
    (h : A.map List.length = B.map List.length) {n : ℕ}
    (hB : ∀ s ∈ B, s.length = n) : ∀ s ∈ A, s.length = n := by
  rw [map_length_replicate hB] at h
  intro s hs
  have hmem : s.length ∈ A.map List.length := List.mem_map_of_mem _ hs
  rw [h] at hmem
  exact List.eq_of_mem_replicate hmem

theorem map_length_eq_length {α β : Type} {A : List (List α)}
    {B : List (List β)} (h : A.map List.length = B.map List.length) :
    A.length = B.length := by
  have := congrArg List.length h
  simpa using this

theorem projStage_shape (m : QuaterNet) (y : Tensor3) (ra : Bool) (T : ℕ)
    (hT : 0 < T) (hy : ∀ s ∈ y, s.length = T)
    (hfcW : m.fc.W.length = 4 * m.numJoints + m.numOutputs)
    (hfcb : m.fc.b.length = 4 * m.numJoints + m.numOutputs) :
    (projStage m y ra).length = y.length ∧
    (∀ s ∈ projStage m y ra, s.length = if ra then T else 1) ∧
    (∀ s ∈ projStage m y ra, ∀ r ∈ s,
      r.length = 4 * m.numJoints + m.numOutputs) := by
  have happ : ∀ v, (m.fc.apply v).length = 4 * m.numJoints + m.numOutputs := by
    intro v
    rw [Linear.apply_length, hfcW, hfcb, min_self]
  cases ra with
  | true =>
    rw [projStage, if_pos rfl]
    refine ⟨by rw [List.length_map], ?_, ?_⟩
    · intro s hs
      rw [List.mem_map] at hs
      obtain ⟨s0, hs0, rfl⟩ := hs
      rw [List.length_map, if_pos rfl]
      exact hy s0 hs0
    · intro s hs r hr
      rw [List.mem_map] at hs
      obtain ⟨s0, hs0, rfl⟩ := hs
      rw [List.mem_map] at hr
      obtain ⟨r0, hr0, rfl⟩ := hr
      exact happ r0
  | false =>
    rw [projStage, if_neg (by simp)]
    refine ⟨by rw [List.length_map], ?_, ?_⟩
    · intro s hs
      rw [List.mem_map] at hs
      obtain ⟨s0, hs0, rfl⟩ := hs
      rw [List.length_map, List.length_drop, hy s0 hs0, if_neg (by simp)]
      omega
    · intro s hs r hr
      rw [List.mem_map] at hs
      obtain ⟨s0, hs0, rfl⟩ := hs
      rw [List.mem_map] at hr
      obtain ⟨r0, hr0, rfl⟩ := hr
      exact happ r0

theorem origSliced_shape (x : Tensor3) (ra : Bool) (T : ℕ) (hT : 0 < T)
    (hxt : ∀ s ∈ x, s.length = T) :
    (origSliced x ra).length = x.length ∧
    (∀ s ∈ origSliced x ra, s.length = if ra then T else 1) ∧
    (∀ s ∈ origSliced x ra, ∀ r ∈ s, r ∈ x.flatten) := by
  cases ra with
  | true =>
    rw [origSliced, if_pos rfl]
    refine ⟨rfl, ?_, ?_⟩
    · intro s hs
      rw [if_pos rfl]
      exact hxt s hs
    · intro s hs r hr
      exact List.mem_flatten.mpr ⟨s, hs, hr⟩
  | false =>
    rw [origSliced, if_neg (by simp)]
    refine ⟨by rw [List.length_map], ?_, ?_⟩
    · intro s hs
      rw [List.mem_map] at hs
      obtain ⟨s0, hs0, rfl⟩ := hs
      rw [List.length_drop, hxt s0 hs0, if_neg (by simp)]
      omega
    · intro s hs r hr
      rw [List.mem_map] at hs
      obtain ⟨s0, hs0, rfl⟩ := hs
      exact List.mem_flatten.mpr ⟨s0, hs0, List.mem_of_mem_drop hr⟩

theorem preBlock_shape (J : ℕ) (t : Tensor3) (F : ℕ) (hF : 4 * J ≤ F)
    (ht : ∀ s ∈ t, ∀ r ∈ s, r.length = F) :
    (preBlock J t).map List.length = t.map List.length ∧
    (∀ s ∈ preBlock J t, ∀ r ∈ s, r.length = 4 * J) := by
  constructor
  · rw [preBlock, List.map_map]
    simp
  · intro s hs r hr
    rw [preBlock, List.mem_map] at hs
    obtain ⟨s0, hs0, rfl⟩ := hs
    rw [List.mem_map] at hr
    obtain ⟨r0, hr0, rfl⟩ := hr
    rw [List.length_take, ht s0 hs0 r0 hr0]
    omega

/-- Structure of the output of `forward`: under the GRU shape contract and
the input shape preconditions, the output tensor is the per-frame nested
rotation pipeline, re-joined with the auxiliary output channels. -/
theorem forward_struct (m : QuaterNet) (x : Tensor3) (h : Option HState)
    (rp ra : Bool) (T : ℕ) (hT : 0 < T)
    (hxt : ∀ s ∈ x, s.length = T)
    (hxr : ∀ s ∈ x, ∀ r ∈ s,
      r.length = 4 * m.numJoints + m.numOutputs + m.numControls)
    (hfcW : m.fc.W.length = 4 * m.numJoints + m.numOutputs)
    (hfcb : m.fc.b.length = 4 * m.numJoints + m.numOutputs)
    (hrnn : ∀ a hh, ((m.rnn a hh).1).map List.length = a.map List.length)
    (hJ : m.numJoints ≠ 0) :
    (forward m x h rp ra).1 =
      (if 0 < m.numOutputs then
        List.zipWith (fun nb pb => List.zipWith
          (fun nr pr => nr ++ pr.drop (4 * m.numJoints)) nb pb)
          (nestedRot m.modelVelocities
            (preBlock m.numJoints (projOf m x h ra))
            (preBlock m.numJoints (origSliced x ra)))
          (projOf m x h ra)
      else nestedRot m.modelVelocities
        (preBlock m.numJoints (projOf m x h ra))
        (preBlock m.numJoints (origSliced x ra))) := by
  have hylen : ((m.rnn (controlsStage m x) (hInOf m x h)).1).map List.length =
      x.map List.length := by
    rw [hrnn, controlsStage_lengths]
  simp only [forward]
  by_cases hx0 : x = []
  · subst hx0
    have hps : projOf m [] h ra = [] := by
      have hynil : (m.rnn (controlsStage m []) (hInOf m [] h)).1 = [] := by
        have hl := map_length_eq_length hylen
        simpa using hl
      rw [projOf, hynil, projStage]
      split <;> rfl
    have hcf : composedFlat m [] h ra = [] := by
      rw [composedFlat, hps]
      simp only [preBlock, origSliced, List.map_nil, flatQ]
      split
      · split
        · simp [chunks_nil, qmul]
        · simp [chunks_nil, qmul]
      · simp [chunks_nil]
    rw [hps, hcf]
    simp only [preBlock, List.map_nil, origSliced, nestedRot]
    split
    · split <;> simp [view3, chunks_nil]
    · split <;> simp [view3, chunks_nil]
  · have hymem : ∀ s ∈ (m.rnn (controlsStage m x) (hInOf m x h)).1,
        s.length = T := map_length_eq_mem hylen hxt
    obtain ⟨hplen, hpseq, hprow⟩ :=
      projStage_shape m (m.rnn (controlsStage m x) (hInOf m x h)).1 ra T hT
        hymem hfcW hfcb
    rw [show projStage m (m.rnn (controlsStage m x) (hInOf m x h)).1 ra =
      projOf m x h ra from rfl] at hplen hpseq hprow
    set T' : ℕ := if ra then T else 1 with hTdef
    have hT' : T' ≠ 0 := by
      rw [hTdef]
      split <;> omega
    set proj : Tensor3 := projOf m x h ra with hprojdef
    set pre : Tensor3 := preBlock m.numJoints proj with hpredef
    set preO : Tensor3 := preBlock m.numJoints (origSliced x ra) with hpreOdef
    obtain ⟨hpremap, hprerow⟩ := preBlock_shape m.numJoints proj
      (4 * m.numJoints + m.numOutputs) (Nat.le_add_right _ _) hprow
    obtain ⟨holen, hoseq, horow⟩ := origSliced_shape x ra T hT hxt
    obtain ⟨hpreOmap, hpreOrow⟩ := preBlock_shape m.numJoints
      (origSliced x ra) (4 * m.numJoints + m.numOutputs + m.numControls)
      (by omega)
      (by
        intro s hs r hr
        have hrx : r ∈ x.flatten := horow s hs r hr
        rw [List.mem_flatten] at hrx
        obtain ⟨s0, hs0, hrs0⟩ := hrx
        exact hxr s0 hs0 r hrs0)
    have hpreseq : ∀ s ∈ pre, s.length = T' :=
      map_length_eq_mem hpremap hpseq
    have hpreOseq : ∀ s ∈ preO, s.length = T' :=
      map_length_eq_mem hpreOmap hoseq
    have hylen2 : (m.rnn (controlsStage m x) (hInOf m x h)).1.length =
        x.length := map_length_eq_length hylen
    have hprelen : pre.length = x.length := by
      rw [map_length_eq_length hpremap, hplen, hylen2]
    have hlenpp : pre.length = preO.length := by
      rw [hprelen, map_length_eq_length hpreOmap, holen]
    have hprenil : pre ≠ [] := by
      intro e
      rw [e] at hprelen
      exact hx0 (List.length_eq_zero.mp hprelen.symm)
    have hhead : (pre.headD []).length = T' := by
      rcases hpe : pre with _ | ⟨p0, prest⟩
      · exact absurd hpe hprenil
      · exact hpreseq p0 (by rw [hpe]; exact List.mem_cons_self p0 prest)
    have hcf : composedFlat m x h ra =
        (if m.modelVelocities then qmul (flatQ pre) (flatQ preO)
         else flatQ pre) := by
      rw [composedFlat]
    have hnorm : view3 (pre.headD []).length (4 * m.numJoints)
        (((composedFlat m x h ra).map normalizeRow).flatten) =
        nestedRot m.modelVelocities pre preO := by
      rw [hhead, hcf]
      exact rot_pipeline_nested m.modelVelocities hJ pre preO hT' hpreseq
        hpreOseq hlenpp hprerow hpreOrow
    rw [hnorm]

theorem nestedRot_shape (vel : Bool) {J T' : ℕ} (pre preO : Tensor3)
    (hpreT : ∀ s ∈ pre, s.length = T') (hpreOT : ∀ s ∈ preO, s.length = T')
    (hlen : pre.length = preO.length)
    (hprer : ∀ s ∈ pre, ∀ r ∈ s, r.length = 4 * J)
    (hpreOr : ∀ s ∈ preO, ∀ r ∈ s, r.length = 4 * J) :
    (nestedRot vel pre preO).length = pre.length ∧
    (∀ s ∈ nestedRot vel pre preO, s.length = T') ∧
    (∀ s ∈ nestedRot vel pre preO, ∀ r ∈ s, r.length = 4 * J) := by
  cases vel with
  | false =>
    rw [nestedRot, if_neg (by simp)]
    refine ⟨by rw [List.length_map], ?_, ?_⟩
    · intro s hs
      rw [List.mem_map] at hs
      obtain ⟨s0, hs0, rfl⟩ := hs
      rw [List.length_map]
      exact hpreT s0 hs0
    · intro s hs r hr
      rw [List.mem_map] at hs
      obtain ⟨s0, hs0, rfl⟩ := hs
      rw [List.mem_map] at hr
      obtain ⟨r0, hr0, rfl⟩ := hr
      exact rowNorm_length (hprer s0 hs0 r0 hr0)
  | true =>
    rw [nestedRot, if_pos rfl]
    refine ⟨by rw [List.length_zipWith, hlen, min_self], ?_, ?_⟩
    · intro s hs
      obtain ⟨sa, sb, hsa, hsb, rfl⟩ := mem_zipWith_imp hs
      rw [List.length_zipWith, hpreT sa hsa, hpreOT sb hsb, min_self]
    · intro s hs r hr
      obtain ⟨sa, sb, hsa, hsb, rfl⟩ := mem_zipWith_imp hs
      obtain ⟨ra, rb, hra, hrb, rfl⟩ := mem_zipWith_imp hr
      exact rowNormV_length (hprer sa hsa ra hra) (hpreOr sb hsb rb hrb)

/-- Shape of the output of `forward`: batch size preserved, output time
dimension `T` with `return_all` and `1` without, and every output frame has
`4*J + O` channels. -/
theorem forward_shape (m : QuaterNet) (x : Tensor3) (h : Option HState)
    (rp ra : Bool) (T : ℕ) (hT : 0 < T)
    (hxt : ∀ s ∈ x, s.length = T)
    (hxr : ∀ s ∈ x, ∀ r ∈ s,
      r.length = 4 * m.numJoints + m.numOutputs + m.numControls)
    (hfcW : m.fc.W.length = 4 * m.numJoints + m.numOutputs)
    (hfcb : m.fc.b.length = 4 * m.numJoints + m.numOutputs)
    (hrnn : ∀ a hh, ((m.rnn a hh).1).map List.length = a.map List.length)
    (hJ : m.numJoints ≠ 0) :
    (forward m x h rp ra).1.length = x.length ∧
    (∀ s ∈ (forward m x h rp ra).1, s.length = if ra then T else 1) ∧
    (∀ s ∈ (forward m x h rp ra).1, ∀ r ∈ s,
      r.length = 4 * m.numJoints + m.numOutputs) := by
  have hylen : ((m.rnn (controlsStage m x) (hInOf m x h)).1).map List.length =
      x.map List.length := by
    rw [hrnn, controlsStage_lengths]
  have hymem : ∀ s ∈ (m.rnn (controlsStage m x) (hInOf m x h)).1,
      s.length = T := map_length_eq_mem hylen hxt
  obtain ⟨hplen, hpseq, hprow⟩ :=
    projStage_shape m (m.rnn (controlsStage m x) (hInOf m x h)).1 ra T hT
      hymem hfcW hfcb
  rw [show projStage m (m.rnn (controlsStage m x) (hInOf m x h)).1 ra =
    projOf m x h ra from rfl] at hplen hpseq hprow
  obtain ⟨hpremap, hprerow⟩ := preBlock_shape m.numJoints (projOf m x h ra)
    (4 * m.numJoints + m.numOutputs) (Nat.le_add_right _ _) hprow
  obtain ⟨holen, hoseq, horow⟩ := origSliced_shape x ra T hT hxt
  obtain ⟨hpreOmap, hpreOrow⟩ := preBlock_shape m.numJoints
    (origSliced x ra) (4 * m.numJoints + m.numOutputs + m.numControls)
    (by omega)
    (by
      intro s hs r hr
      have hrx : r ∈ x.flatten := horow s hs r hr
      rw [List.mem_flatten] at hrx
      obtain ⟨s0, hs0, hrs0⟩ := hrx
      exact hxr s0 hs0 r hrs0)
  have hpreseq := map_length_eq_mem hpremap hpseq
  have hpreOseq := map_length_eq_mem hpreOmap hoseq
  have hprojlen : (projOf m x h ra).length = x.length := by
    rw [hplen, map_length_eq_length hylen]
  have hlenpp : (preBlock m.numJoints (projOf m x h ra)).length =
      (preBlock m.numJoints (origSliced x ra)).length := by
    rw [map_length_eq_length hpremap, hprojlen,
      map_length_eq_length hpreOmap, holen]
  obtain ⟨hnlen, hnseq, hnrow⟩ := nestedRot_shape m.modelVelocities
    (preBlock m.numJoints (projOf m x h ra))
    (preBlock m.numJoints (origSliced x ra))
    hpreseq hpreOseq hlenpp hprerow hpreOrow
  rw [forward_struct m x h rp ra T hT hxt hxr hfcW hfcb hrnn hJ]
  have hnlen2 : (nestedRot m.modelVelocities
      (preBlock m.numJoints (projOf m x h ra))
      (preBlock m.numJoints (origSliced x ra))).length = x.length := by
    rw [hnlen, map_length_eq_length hpremap, hprojlen]
  by_cases hO : 0 < m.numOutputs
  · rw [if_pos hO]
    refine ⟨?_, ?_, ?_⟩
    · rw [List.length_zipWith, hnlen2, hprojlen, min_self]
    · intro s hs
      obtain ⟨sn, sp, hsn, hsp, rfl⟩ := mem_zipWith_imp hs
      rw [List.length_zipWith, hnseq sn hsn, hpseq sp hsp, min_self]
    · intro s hs r hr
      obtain ⟨sn, sp, hsn, hsp, rfl⟩ := mem_zipWith_imp hs
      obtain ⟨rn, rp2, hrn, hrp, rfl⟩ := mem_zipWith_imp hr
      rw [List.length_append, List.length_drop, hnrow sn hsn rn hrn,
        hprow sp hsp rp2 hrp]
      omega
  · rw [if_neg hO]
    have hO0 : m.numOutputs = 0 := by omega
    refine ⟨hnlen2, hnseq, ?_⟩
    intro s hs r hr
    rw [hnrow s hs r hr, hO0]
    omega

/-! ## C6: the shape contract of `forward` -/

/-- C6: for a model with `J = 32`, `O = 2`, `C = 5` and an input of shape
`(4, 10, 135)`, `forward` returns shape `(4, 1, 130)` with
`return_all = False` (only the final timestep is projected) and
`(4, 10, 130)` with `return_all = True` (every timestep is projected). -/
theorem c6_shape_contract (m : QuaterNet) (x : Tensor3) (h : Option HState)
    (rp : Bool)
    (hJm : m.numJoints = 32) (hOm : m.numOutputs = 2)
    (hCm : m.numControls = 5)
    (hfcW : m.fc.W.length = 130) (hfcb : m.fc.b.length = 130)
    (hrnn : ∀ a hh, ((m.rnn a hh).1).map List.length = a.map List.length)
    (hxB : x.length = 4) (hxt : ∀ s ∈ x, s.length = 10)
    (hxr : ∀ s ∈ x, ∀ r ∈ s, r.length = 135) :
    ((forward m x h rp false).1.length = 4 ∧
      (∀ s ∈ (forward m x h rp false).1, s.length = 1) ∧
      (∀ s ∈ (forward m x h rp false).1, ∀ r ∈ s, r.length = 130)) ∧
    ((forward m x h rp true).1.length = 4 ∧
      (∀ s ∈ (forward m x h rp true).1, s.length = 10) ∧
      (∀ s ∈ (forward m x h rp true).1, ∀ r ∈ s, r.length = 130)) := by
  have hfcW2 : m.fc.W.length = 4 * m.numJoints + m.numOutputs := by
    rw [hfcW, hJm, hOm]
  have hfcb2 : m.fc.b.length = 4 * m.numJoints + m.numOutputs := by
    rw [hfcb, hJm, hOm]
  have hxr2 : ∀ s ∈ x, ∀ r ∈ s,
      r.length = 4 * m.numJoints + m.numOutputs + m.numControls := by
    intro s hs r hr
    rw [hxr s hs r hr, hJm, hOm, hCm]
  have hJ : m.numJoints ≠ 0 := by
    rw [hJm]
    omega
  obtain ⟨hl1, hs1, hr1⟩ := forward_shape m x h rp false 10 (by omega)
    hxt hxr2 hfcW2 hfcb2 hrnn hJ
  obtain ⟨hl2, hs2, hr2⟩ := forward_shape m x h rp true 10 (by omega)
    hxt hxr2 hfcW2 hfcb2 hrnn hJ
  refine ⟨⟨by rw [hl1, hxB], ?_, ?_⟩, ⟨by rw [hl2, hxB], ?_, ?_⟩⟩
  · intro s hs
    have hlen1 := hs1 s hs
    simpa using hlen1
  · intro s hs r hr
    rw [hr1 s hs r hr, hJm, hOm]
  · intro s hs
    have hlen2 := hs2 s hs
    simpa using hlen2
  · intro s hs r hr
    rw [hr2 s hs r hr, hJm, hOm]

/-- Witness for C6 at a concrete `(4, 10, 135)` zero input and a model with
replicate-shaped parameters. -/
theorem c6_shape_contract_witness :
    ((forward cm6 cx6 none false false).1.length = 4 ∧
      (∀ s ∈ (forward cm6 cx6 none false false).1, s.length = 1) ∧
      (∀ s ∈ (forward cm6 cx6 none false false).1, ∀ r ∈ s,
        r.length = 130)) ∧
    ((forward cm6 cx6 none false true).1.length = 4 ∧
      (∀ s ∈ (forward cm6 cx6 none false true).1, s.length = 10) ∧
      (∀ s ∈ (forward cm6 cx6 none false true).1, ∀ r ∈ s,
        r.length = 130)) := by
  apply c6_shape_contract
  · rfl
  · rfl
  · rfl
  · simp [cm6]
  · simp [cm6]
  · intro a hh
    simp [cm6, rnnStub]
  · rfl
  · intro s hs
    rw [cx6, List.mem_replicate] at hs
    rw [hs.2]
    simp
  · intro s hs r hr
    rw [cx6, List.mem_replicate] at hs
    rw [hs.2, List.mem_replicate] at hr
    rw [hr.2]
    simp

/-! ## Locating output quaternion blocks inside the composed batch -/

theorem getD_mem_of_lt {α : Type} {l : List α} {i : ℕ} (h : i < l.length)
    (d : α) : l.getD i d ∈ l := by
  rw [List.getD_eq_getElem l d h]
  exact List.getElem_mem h

theorem mem_zipWith_getElem {α β γ : Type} {f : α → β → γ} {A : List α}
    {B : List β} {c : γ} (hc : c ∈ List.zipWith f A B) :
    ∃ i, ∃ (hA : i < A.length) (hB : i < B.length), c = f A[i] B[i] := by
  rw [List.mem_iff_getElem] at hc
  obtain ⟨i, hi, hget⟩ := hc
  rw [List.getElem_zipWith] at hget
  have hiA : i < A.length := by
    rw [List.length_zipWith] at hi
    omega
  have hiB : i < B.length := by
    rw [List.length_zipWith] at hi
    omega
  exact ⟨i, hiA, hiB, hget.symm⟩

theorem drop_take_append {α : Type} {a b : List α} {k m : ℕ}
    (h : k + m ≤ a.length) :
    ((a ++ b).drop k).take m = (a.drop k).take m := by
  rw [List.drop_append_eq_append_drop, Nat.sub_eq_zero_of_le (by omega),
    List.drop_zero, List.take_append_eq_append_take]
  have h0 : m - (a.drop k).length = 0 := by
    rw [List.length_drop]
    omega
  rw [h0, List.take_zero, List.append_nil]

theorem block_of_flatten {Q : List (List ℝ)} (h4 : ∀ c ∈ Q, c.length = 4)
    {j : ℕ} (hj : j < Q.length) :
    ((Q.flatten).drop (4 * j)).take 4 = Q.getD j [] := by
  induction Q generalizing j with
  | nil => simp at hj
  | cons c Q2 ih =>
    have hc := h4 c (by simp)
    cases j with
    | zero =>
      rw [List.flatten_cons, Nat.mul_zero, List.drop_zero,
        List.take_append_eq_append_take, ← hc, List.take_length,
        Nat.sub_self, List.take_zero, List.append_nil]
      rfl
    | succ j =>
      have harith : 4 * (j + 1) = c.length + 4 * j := by
        rw [hc]
        ring
      rw [List.flatten_cons, harith, ← List.drop_drop, List.drop_left,
        ih (fun c2 hc2 => h4 c2 (by simp [hc2])) (by simpa using hj),
        List.getD_cons_succ]

theorem chunks4_getD {r : List ℝ} {J : ℕ} (h : r.length = 4 * J) {j : ℕ}
    (hj : j < J) : (chunks 4 r).getD j [] = (r.drop (4 * j)).take 4 := by
  rw [← block_of_flatten (chunks4_mem_length h)
      (by rw [chunks4_length h]; exact hj),
    flatten_chunks 4 (by norm_num) r]

theorem qmul_flat_eq {J T' : ℕ} (pre preO : Tensor3)
    (hpreT : ∀ s ∈ pre, s.length = T') (hpreOT : ∀ s ∈ preO, s.length = T')
    (hlen : pre.length = preO.length)
    (hprer : ∀ s ∈ pre, ∀ r ∈ s, r.length = 4 * J)
    (hpreOr : ∀ s ∈ preO, ∀ r ∈ s, r.length = 4 * J) :
    qmul (flatQ pre) (flatQ preO) =
      ((List.zipWith (fun sa sb => List.zipWith (fun ra rb =>
        List.zipWith qmul1 (chunks 4 ra) (chunks 4 rb)) sa sb) pre
        preO).flatten).flatten := by
  have hfr : ∀ r ∈ pre.flatten, r.length = 4 * J := by
    intro r hrm
    rw [List.mem_flatten] at hrm
    obtain ⟨s, hs, hrs⟩ := hrm
    exact hprer s hs r hrs
  have hfrO : ∀ r ∈ preO.flatten, r.length = 4 * J := by
    intro r hrm
    rw [List.mem_flatten] at hrm
    obtain ⟨s, hs, hrs⟩ := hrm
    exact hpreOr s hs r hrs
  have hflen : pre.flatten.length = preO.flatten.length := by
    rw [length_flatten_uniform hpreT, length_flatten_uniform hpreOT, hlen]
  have hchunkmap : (pre.flatten.map (chunks 4)).map List.length =
      (preO.flatten.map (chunks 4)).map List.length := by
    rw [List.map_map, List.map_map]
    have h1 : pre.flatten.map (List.length ∘ chunks 4) =
        List.replicate pre.flatten.length J := by
      rw [List.eq_replicate_iff]
      refine ⟨by rw [List.length_map], ?_⟩
      intro b hb
      rw [List.mem_map] at hb
      obtain ⟨r, hrm, rfl⟩ := hb
      exact chunks4_length (hfr r hrm)
    have h2 : preO.flatten.map (List.length ∘ chunks 4) =
        List.replicate preO.flatten.length J := by
      rw [List.eq_replicate_iff]
      refine ⟨by rw [List.length_map], ?_⟩
      intro b hb
      rw [List.mem_map] at hb
      obtain ⟨r, hrm, rfl⟩ := hb
      exact chunks4_length (hfrO r hrm)
    rw [h1, h2, hflen]
  have hseqmap : pre.map List.length = preO.map List.length := by
    rw [map_length_replicate hpreT, map_length_replicate hpreOT, hlen]
  rw [qmul, flatQ_eq hprer, flatQ_eq hpreOr,
    zipWith_flatten qmul1 _ _ hchunkmap, List.zipWith_map,
    zipWith_flatten _ _ _ hseqmap]

/-- Every `4`-block of the nested rotation output is the renormalization of
some row of the composed flat quaternion batch. -/
theorem nested_block_mem (vel : Bool) {J T' : ℕ} (pre preO : Tensor3)
    (hpreT : ∀ s ∈ pre, s.length = T') (hpreOT : ∀ s ∈ preO, s.length = T')
    (hlen : pre.length = preO.length)
    (hprer : ∀ s ∈ pre, ∀ r ∈ s, r.length = 4 * J)
    (hpreOr : ∀ s ∈ preO, ∀ r ∈ s, r.length = 4 * J) :
    ∀ s ∈ nestedRot vel pre preO, ∀ r ∈ s, ∀ j, j < J →
      ∃ q, q ∈ (if vel then qmul (flatQ pre) (flatQ preO) else flatQ pre) ∧
        (r.drop (4 * j)).take 4 = normalizeRow q := by
  intro s hs r hr j hj
  cases vel with
  | false =>
    rw [nestedRot, if_neg (by simp)] at hs
    rw [if_neg (by simp)]
    rw [List.mem_map] at hs
    obtain ⟨s0, hs0, rfl⟩ := hs
    rw [List.mem_map] at hr
    obtain ⟨r0, hr0, rfl⟩ := hr
    have hlen0 := hprer s0 hs0 r0 hr0
    have hQmem : ∀ c ∈ (chunks 4 r0).map normalizeRow, c.length = 4 := by
      intro c hc
      rw [List.mem_map] at hc
      obtain ⟨c0, hc0, rfl⟩ := hc
      rw [normalizeRow_length]
      exact chunks4_mem_length hlen0 c0 hc0
    have hjQ : j < ((chunks 4 r0).map normalizeRow).length := by
      rw [List.length_map, chunks4_length hlen0]
      exact hj
    have hjQ0 : j < (chunks 4 r0).length := by
      rw [chunks4_length hlen0]
      exact hj
    rw [rowNorm, block_of_flatten hQmem hjQ]
    refine ⟨(chunks 4 r0).getD j [], ?_, ?_⟩
    · rw [flatQ_eq hprer, List.mem_flatten]
      exact ⟨chunks 4 r0,
        List.mem_map_of_mem _ (List.mem_flatten.mpr ⟨s0, hs0, hr0⟩),
        getD_mem_of_lt hjQ0 []⟩
    · rw [List.getD_eq_getElem _ _ hjQ, List.getElem_map,
        List.getD_eq_getElem _ _ hjQ0]
  | true =>
    rw [nestedRot, if_pos rfl] at hs
    rw [if_pos rfl]
    obtain ⟨b, hbp, hbo, rfl⟩ := mem_zipWith_getElem hs
    obtain ⟨t, htp, hto, rfl⟩ := mem_zipWith_getElem hr
    have hra := hprer pre[b] (List.getElem_mem hbp) _ (List.getElem_mem htp)
    have hrb := hpreOr preO[b] (List.getElem_mem hbo) _ (List.getElem_mem hto)
    have hQlen : (List.zipWith qmul1 (chunks 4 pre[b][t])
        (chunks 4 preO[b][t])).length = J := by
      rw [List.length_zipWith, chunks4_length hra, chunks4_length hrb,
        min_self]
    have hQ4 : ∀ c ∈ (List.zipWith qmul1 (chunks 4 pre[b][t])
        (chunks 4 preO[b][t])).map normalizeRow, c.length = 4 := by
      intro c hc
      rw [List.mem_map] at hc
      obtain ⟨c0, hc0, rfl⟩ := hc
      obtain ⟨a2, b2, _, _, rfl⟩ := mem_zipWith_imp hc0
      rw [normalizeRow_length, qmul1_length]
    have hjQ : j < ((List.zipWith qmul1 (chunks 4 pre[b][t])
        (chunks 4 preO[b][t])).map normalizeRow).length := by
      rw [List.length_map, hQlen]
      exact hj
    have hjQ0 : j < (List.zipWith qmul1 (chunks 4 pre[b][t])
        (chunks 4 preO[b][t])).length := by
      rw [hQlen]
      exact hj
    rw [rowNormV, block_of_flatten hQ4 hjQ]
    refine ⟨(List.zipWith qmul1 (chunks 4 pre[b][t])
      (chunks 4 preO[b][t])).getD j [], ?_, ?_⟩
    · rw [qmul_flat_eq pre preO hpreT hpreOT hlen hprer hpreOr,
        List.mem_flatten]
      refine ⟨List.zipWith qmul1 (chunks 4 pre[b][t]) (chunks 4 preO[b][t]),
        ?_, getD_mem_of_lt hjQ0 []⟩
      rw [List.mem_flatten]
      refine ⟨List.zipWith (fun ra rb =>
        List.zipWith qmul1 (chunks 4 ra) (chunks 4 rb)) pre[b] preO[b],
        ?_, ?_⟩
      · rw [List.mem_iff_getElem]
        refine ⟨b, ?_, ?_⟩
        · rw [List.length_zipWith]
          omega
        · rw [List.getElem_zipWith]
      · rw [List.mem_iff_getElem]
        refine ⟨t, ?_, ?_⟩
        · rw [List.length_zipWith]
          omega
        · rw [List.getElem_zipWith]
    · rw [List.getD_eq_getElem _ _ hjQ, List.getElem_map,
        List.getD_eq_getElem _ _ hjQ0]

/-- The shapes of the two rotation blocks entering the composed pipeline
(the projected block and the sliced input block). -/
theorem pre_shapes (m : QuaterNet) (x : Tensor3) (h : Option HState)
    (ra : Bool) (T : ℕ) (hT : 0 < T)
    (hxt : ∀ s ∈ x, s.length = T)
    (hxr : ∀ s ∈ x, ∀ r ∈ s,
      r.length = 4 * m.numJoints + m.numOutputs + m.numControls)
    (hfcW : m.fc.W.length = 4 * m.numJoints + m.numOutputs)
    (hfcb : m.fc.b.length = 4 * m.numJoints + m.numOutputs)
    (hrnn : ∀ a hh, ((m.rnn a hh).1).map List.length = a.map List.length) :
    (∀ s ∈ preBlock m.numJoints (projOf m x h ra),
      s.length = if ra then T else 1) ∧
    (∀ s ∈ preBlock m.numJoints (origSliced x ra),
      s.length = if ra then T else 1) ∧
    (preBlock m.numJoints (projOf m x h ra)).length =
      (preBlock m.numJoints (origSliced x ra)).length ∧
    (∀ s ∈ preBlock m.numJoints (projOf m x h ra), ∀ r ∈ s,
      r.length = 4 * m.numJoints) ∧
    (∀ s ∈ preBlock m.numJoints (origSliced x ra), ∀ r ∈ s,
      r.length = 4 * m.numJoints) ∧
    (projOf m x h ra).length = x.length ∧
    (∀ s ∈ projOf m x h ra, s.length = if ra then T else 1) ∧
    (∀ s ∈ projOf m x h ra, ∀ r ∈ s,
      r.length = 4 * m.numJoints + m.numOutputs) := by
  have hylen : ((m.rnn (controlsStage m x) (hInOf m x h)).1).map List.length =
      x.map List.length := by
    rw [hrnn, controlsStage_lengths]
  have hymem : ∀ s ∈ (m.rnn (controlsStage m x) (hInOf m x h)).1,
      s.length = T := map_length_eq_mem hylen hxt
  obtain ⟨hplen, hpseq, hprow⟩ :=
    projStage_shape m (m.rnn (controlsStage m x) (hInOf m x h)).1 ra T hT
      hymem hfcW hfcb
  rw [show projStage m (m.rnn (controlsStage m x) (hInOf m x h)).1 ra =
    projOf m x h ra from rfl] at hplen hpseq hprow
  obtain ⟨hpremap, hprerow⟩ := preBlock_shape m.numJoints (projOf m x h ra)
    (4 * m.numJoints + m.numOutputs) (Nat.le_add_right _ _) hprow
  obtain ⟨holen, hoseq, horow⟩ := origSliced_shape x ra T hT hxt
  obtain ⟨hpreOmap, hpreOrow⟩ := preBlock_shape m.numJoints
    (origSliced x ra) (4 * m.numJoints + m.numOutputs + m.numControls)
    (by omega)
    (by
      intro s hs r hr
      have hrx : r ∈ x.flatten := horow s hs r hr
      rw [List.mem_flatten] at hrx
      obtain ⟨s0, hs0, hrs0⟩ := hrx
      exact hxr s0 hs0 r hrs0)
  have hprojlen : (projOf m x h ra).length = x.length := by
    rw [hplen, map_length_eq_length hylen]
  refine ⟨map_length_eq_mem hpremap hpseq, map_length_eq_mem hpreOmap hoseq,
    ?_, hprerow, hpreOrow, hprojlen, hpseq, hprow⟩
  rw [map_length_eq_length hpremap, hprojlen,
    map_length_eq_length hpreOmap, holen]

/-! ## C1: unit norm of output rotation blocks -/

/-- C1 amended: provided every composed (post-residual) quaternion row of
the flattened rotation batch has L2 norm at least the `F.normalize` eps
clamp (`1e-12`) — in particular, does not degenerate to the zero vector —
every 4-component quaternion block of the returned rotation channels has L2
norm exactly 1, for every joint, every batch element, every returned
timestep, with `return_all` true or false, in both velocity and
absolute-rotation mode. -/
theorem c1_unit_norm (m : QuaterNet) (x : Tensor3) (h : Option HState)
    (rp ra : Bool) (T : ℕ) (hT : 0 < T)
    (hxt : ∀ s ∈ x, s.length = T)
    (hxr : ∀ s ∈ x, ∀ r ∈ s,
      r.length = 4 * m.numJoints + m.numOutputs + m.numControls)
    (hfcW : m.fc.W.length = 4 * m.numJoints + m.numOutputs)
    (hfcb : m.fc.b.length = 4 * m.numJoints + m.numOutputs)
    (hrnn : ∀ a hh, ((m.rnn a hh).1).map List.length = a.map List.length)
    (hJ : m.numJoints ≠ 0)
    (heps : ∀ row ∈ composedFlat m x h ra, normEps ≤ l2norm row) :
    ∀ s ∈ (forward m x h rp ra).1, ∀ r ∈ s, ∀ j, j < m.numJoints →
      l2norm ((r.drop (4 * j)).take 4) = 1 := by
  obtain ⟨hpreseq, hpreOseq, hlenpp, hprerow, hpreOrow, hprojlen, hpseq,
    hprow⟩ := pre_shapes m x h ra T hT hxt hxr hfcW hfcb hrnn
  have hfin : ∀ q, q ∈ (if m.modelVelocities then
      qmul (flatQ (preBlock m.numJoints (projOf m x h ra)))
        (flatQ (preBlock m.numJoints (origSliced x ra)))
      else flatQ (preBlock m.numJoints (projOf m x h ra))) →
      l2norm (normalizeRow q) = 1 := by
    intro q hq
    have hq2 : q ∈ composedFlat m x h ra := by
      rw [composedFlat]
      exact hq
    have hsum := normalizeRow_sumSq (heps q hq2)
    rw [l2norm, hsum, Real.sqrt_one]
  intro s hs r hr j hj
  rw [forward_struct m x h rp ra T hT hxt hxr hfcW hfcb hrnn hJ] at hs
  by_cases hO : 0 < m.numOutputs
  · rw [if_pos hO] at hs
    obtain ⟨sn, sp, hsn, hsp, rfl⟩ := mem_zipWith_imp hs
    obtain ⟨rn, rp2, hrn, hrp, rfl⟩ := mem_zipWith_imp hr
    obtain ⟨hnlen, hnseq, hnrow⟩ := nestedRot_shape m.modelVelocities
      (preBlock m.numJoints (projOf m x h ra))
      (preBlock m.numJoints (origSliced x ra))
      hpreseq hpreOseq hlenpp hprerow hpreOrow
    have hrnlen : rn.length = 4 * m.numJoints := hnrow sn hsn rn hrn
    rw [drop_take_append (by rw [hrnlen]; omega)]
    obtain ⟨q, hqmem, hqeq⟩ := nested_block_mem m.modelVelocities
      (preBlock m.numJoints (projOf m x h ra))
      (preBlock m.numJoints (origSliced x ra))
      hpreseq hpreOseq hlenpp hprerow hpreOrow sn hsn rn hrn j hj
    rw [hqeq]
    exact hfin q hqmem
  · rw [if_neg hO] at hs
    obtain ⟨q, hqmem, hqeq⟩ := nested_block_mem m.modelVelocities
      (preBlock m.numJoints (projOf m x h ra))
      (preBlock m.numJoints (origSliced x ra))
      hpreseq hpreOseq hlenpp hprerow hpreOrow s hs r hr j hj
    rw [hqeq]
    exact hfin q hqmem

/-- C1 counterexample: with an output layer that is identically zero (legal
parameter values), the projected rotation block is the zero 4-vector and
the returned "quaternion" is the zero 4-vector, whose L2 norm is 0, not 1:
the claim's unconditional unit-norm statement fails. -/
theorem c1_counterexample :
    (forward cmAbsZero cxId none false false).1 = [[[0, 0, 0, 0]]] ∧
    l2norm [(0 : ℝ), 0, 0, 0] ≠ 1 := by
  constructor
  · simp only [forward, composedFlat, projOf, projStage, controlsStage,
      hInOf, expandH, cmAbsZero, cxId, idRnn, preBlock, origSliced, flatQ,
      view3, qmul]
    norm_num [Linear.apply, dot]
    have e1 : chunks 4 [(0 : ℝ), 0, 0, 0] = [[0, 0, 0, 0]] :=
      chunks_self (by norm_num) rfl
    have e2 : normalizeRow [(0 : ℝ), 0, 0, 0] = [0, 0, 0, 0] := by
      simp [normalizeRow]
    have e3 : chunks 1 [[(0 : ℝ), 0, 0, 0]] = [[[0, 0, 0, 0]]] :=
      chunks_self (by norm_num) rfl
    simp [e1, e2, e3]
  · have hs0 : sumSq [(0 : ℝ), 0, 0, 0] = 0 := by simp [sumSq]
    rw [l2norm, hs0, Real.sqrt_zero]
    norm_num

/-- Witness for C1 amended at a concrete model whose projected rotation
block is the identity quaternion. -/
theorem c1_unit_norm_witness :
    l2norm (((((forward cmAbsUnit cxId none false false).1.getD 0 []).getD 0
      []).drop (4 * 0)).take 4) = 1 := by
  have hl1 : l2norm [(1 : ℝ), 0, 0, 0] = 1 := by
    have hs : sumSq [(1 : ℝ), 0, 0, 0] = 1 := by simp [sumSq]
    rw [l2norm, hs, Real.sqrt_one]
  have hdiv : normDivisor [(1 : ℝ), 0, 0, 0] = 1 := by
    rw [normDivisor, hl1]
    exact max_eq_left (by norm_num [normEps])
  have e1 : chunks 4 [(1 : ℝ), 0, 0, 0] = [[1, 0, 0, 0]] :=
    chunks_self (by norm_num) rfl
  have e2 : normalizeRow [(1 : ℝ), 0, 0, 0] = [1, 0, 0, 0] := by
    simp [normalizeRow, hdiv]
  have e3 : chunks 1 [[(1 : ℝ), 0, 0, 0]] = [[[1, 0, 0, 0]]] :=
    chunks_self (by norm_num) rfl
  have hcf : composedFlat cmAbsUnit cxId none false = [[(1 : ℝ), 0, 0, 0]] := by
    simp only [composedFlat, projOf, projStage, controlsStage, hInOf,
      expandH, cmAbsUnit, cxId, idRnn, preBlock, origSliced, flatQ, qmul]
    norm_num [Linear.apply, dot]
    exact e1
  have heps : ∀ row ∈ composedFlat cmAbsUnit cxId none false,
      normEps ≤ l2norm row := by
    intro row hrow
    rw [hcf, List.mem_singleton] at hrow
    subst hrow
    rw [hl1]
    norm_num [normEps]
  have hout : (forward cmAbsUnit cxId none false false).1 =
      [[[1, 0, 0, 0]]] := by
    simp only [forward, composedFlat, projOf, projStage, controlsStage,
      hInOf, expandH, cmAbsUnit, cxId, idRnn, preBlock, origSliced, flatQ,
      view3, qmul]
    norm_num [Linear.apply, dot]
    simp [e1, e2, e3]
  have happ := c1_unit_norm cmAbsUnit cxId none false false 1 (by omega)
    (by
      intro s hs
      rw [cxId, List.mem_singleton] at hs
      rw [hs]
      rfl)
    (by
      intro s hs r hr
      rw [cxId, List.mem_singleton] at hs
      subst hs
      rw [List.mem_singleton] at hr
      rw [hr]
      rfl)
    rfl rfl (fun a hh => rfl) (by simp [cmAbsUnit]) heps
  have hres := happ [[(1 : ℝ), 0, 0, 0]] (by rw [hout]; simp)
    [(1 : ℝ), 0, 0, 0] (by simp) 0 (by simp [cmAbsUnit])
  rw [hout]
  simpa using hres

/-! ## C2: velocity-mode residual composition -/

theorem drop_take_take {α : Type} (l : List α) {n k m : ℕ} (h : k + m ≤ n) :
    ((l.take n).drop k).take m = (l.drop k).take m := by
  rw [List.drop_take, List.take_take, min_eq_left (by omega)]

theorem chunks4_getElem {r : List ℝ} {J : ℕ} (h : r.length = 4 * J) {j : ℕ}
    (hj : j < J) (hjl : j < (chunks 4 r).length) :
    (chunks 4 r)[j] = (r.drop (4 * j)).take 4 := by
  rw [← List.getD_eq_getElem (chunks 4 r) ([] : List ℝ) hjl,
    chunks4_getD h hj]

/-- C2 amended: in velocity mode, the composed pre-renormalization
quaternion of `forward` at batch `b`, output timestep `t` and joint `j` is
exactly `multiply(predicted, input)` where `predicted` is the projected
rotation block at `(b, t, j)` and `input` is the quaternion of `x` at the
same timestep (the final input timestep when `return_all` is false); the
renormalized result has unit squared norm provided the composed quaternion
has L2 norm at least the `F.normalize` eps clamp (in particular, is not
degenerate). -/
theorem c2_velocity_composition (m : QuaterNet) (x : Tensor3)
    (h : Option HState) (ra : Bool) (T : ℕ) (hT : 0 < T)
    (hxt : ∀ s ∈ x, s.length = T)
    (hxr : ∀ s ∈ x, ∀ r ∈ s,
      r.length = 4 * m.numJoints + m.numOutputs + m.numControls)
    (hfcW : m.fc.W.length = 4 * m.numJoints + m.numOutputs)
    (hfcb : m.fc.b.length = 4 * m.numJoints + m.numOutputs)
    (hrnn : ∀ a hh, ((m.rnn a hh).1).map List.length = a.map List.length)
    (hvel : m.modelVelocities = true) :
    ∀ b t j, b < x.length → t < (if ra then T else 1) → j < m.numJoints →
      ((composedFlat m x h ra).getD
          ((b * (if ra then T else 1) + t) * m.numJoints + j) [] =
        qmul1
          (((((projOf m x h ra).getD b []).getD t []).drop (4 * j)).take 4)
          ((((x.getD b []).getD (if ra then t else T - 1) []).drop
            (4 * j)).take 4)) ∧
      (normEps ≤ l2norm ((composedFlat m x h ra).getD
          ((b * (if ra then T else 1) + t) * m.numJoints + j) []) →
        sumSq (normalizeRow ((composedFlat m x h ra).getD
          ((b * (if ra then T else 1) + t) * m.numJoints + j) [])) = 1) := by
  obtain ⟨hpreseq, hpreOseq, hlenpp, hprerow, hpreOrow, hprojlen, hpseq,
    hprow⟩ := pre_shapes m x h ra T hT hxt hxr hfcW hfcb hrnn
  intro b t j hb ht hj
  refine ⟨?_, fun hplus => normalizeRow_sumSq hplus⟩
  have hcf : composedFlat m x h ra =
      qmul (flatQ (preBlock m.numJoints (projOf m x h ra)))
        (flatQ (preBlock m.numJoints (origSliced x ra))) := by
    rw [composedFlat, if_pos hvel]
  have hprelen : (preBlock m.numJoints (projOf m x h ra)).length =
      x.length := by
    rw [preBlock, List.length_map, hprojlen]
  rw [hcf, qmul_flat_eq (preBlock m.numJoints (projOf m x h ra))
    (preBlock m.numJoints (origSliced x ra)) hpreseq hpreOseq hlenpp
    hprerow hpreOrow]
  have hBZseq : ∀ s ∈ List.zipWith (fun sa sb => List.zipWith (fun u v =>
      List.zipWith qmul1 (chunks 4 u) (chunks 4 v)) sa sb)
      (preBlock m.numJoints (projOf m x h ra))
      (preBlock m.numJoints (origSliced x ra)),
      s.length = if ra then T else 1 := by
    intro s hs
    obtain ⟨sa, sb, hsa, hsb, rfl⟩ := mem_zipWith_imp hs
    rw [List.length_zipWith, hpreseq sa hsa, hpreOseq sb hsb, min_self]
  have hBZrows : ∀ Q ∈ (List.zipWith (fun sa sb => List.zipWith (fun u v =>
      List.zipWith qmul1 (chunks 4 u) (chunks 4 v)) sa sb)
      (preBlock m.numJoints (projOf m x h ra))
      (preBlock m.numJoints (origSliced x ra))).flatten,
      Q.length = m.numJoints := by
    intro Q hQ
    rw [List.mem_flatten] at hQ
    obtain ⟨s, hs, hQs⟩ := hQ
    obtain ⟨sa, sb, hsa, hsb, rfl⟩ := mem_zipWith_imp hs
    obtain ⟨u, v, hu, hv, rfl⟩ := mem_zipWith_imp hQs
    rw [List.length_zipWith, chunks4_length (hprerow sa hsa u hu),
      chunks4_length (hpreOrow sb hsb v hv), min_self]
  rw [List.getD_eq_getElem?_getD,
    getElem?_flatten_uniform hBZrows hj,
    getElem?_flatten_uniform hBZseq ht]
  have hBZlen : (List.zipWith (fun sa sb => List.zipWith (fun u v =>
      List.zipWith qmul1 (chunks 4 u) (chunks 4 v)) sa sb)
      (preBlock m.numJoints (projOf m x h ra))
      (preBlock m.numJoints (origSliced x ra))).length = x.length := by
    rw [List.length_zipWith, ← hlenpp, min_self, hprelen]
  have hbBZ : b < (List.zipWith (fun sa sb => List.zipWith (fun u v =>
      List.zipWith qmul1 (chunks 4 u) (chunks 4 v)) sa sb)
      (preBlock m.numJoints (projOf m x h ra))
      (preBlock m.numJoints (origSliced x ra))).length := by
    rw [hBZlen]
    exact hb
  have hbpre : b < (preBlock m.numJoints (projOf m x h ra)).length := by
    rw [hprelen]
    exact hb
  have hbpreO : b < (preBlock m.numJoints (origSliced x ra)).length := by
    rw [← hlenpp, hprelen]
    exact hb
  rw [List.getElem?_eq_getElem hbBZ, List.getElem_zipWith]
  have htpre : t < (preBlock m.numJoints (projOf m x h ra))[b].length := by
    rw [hpreseq _ (List.getElem_mem hbpre)]
    exact ht
  have htpreO : t < (preBlock m.numJoints (origSliced x ra))[b].length := by
    rw [hpreOseq _ (List.getElem_mem hbpreO)]
    exact ht
  have htz : t < (List.zipWith (fun u v =>
      List.zipWith qmul1 (chunks 4 u) (chunks 4 v))
      (preBlock m.numJoints (projOf m x h ra))[b]
      (preBlock m.numJoints (origSliced x ra))[b]).length := by
    rw [List.length_zipWith]
    omega
  rw [Option.some_bind, List.getElem?_eq_getElem htz, List.getElem_zipWith,
    Option.some_bind]
  have hrowlen : (preBlock m.numJoints (projOf m x h ra))[b][t].length =
      4 * m.numJoints :=
    hprerow _ (List.getElem_mem hbpre) _ (List.getElem_mem htpre)
  have hrowlenO : (preBlock m.numJoints (origSliced x ra))[b][t].length =
      4 * m.numJoints :=
    hpreOrow _ (List.getElem_mem hbpreO) _ (List.getElem_mem htpreO)
  have hjz : j < (List.zipWith qmul1
      (chunks 4 (preBlock m.numJoints (projOf m x h ra))[b][t])
      (chunks 4 (preBlock m.numJoints (origSliced x ra))[b][t])).length := by
    rw [List.length_zipWith, chunks4_length hrowlen, chunks4_length hrowlenO,
      min_self]
    exact hj
  rw [List.getElem?_eq_getElem hjz, List.getElem_zipWith, Option.getD_some]
  have hjl : j < (chunks 4 (preBlock m.numJoints (projOf m x h ra))[b][t]).length := by
    rw [chunks4_length hrowlen]
    exact hj
  have hjlO : j < (chunks 4 (preBlock m.numJoints (origSliced x ra))[b][t]).length := by
    rw [chunks4_length hrowlenO]
    exact hj
  rw [chunks4_getElem hrowlen hj hjl, chunks4_getElem hrowlenO hj hjlO]
  have hbproj : b < (projOf m x h ra).length := by
    rw [hprojlen]
    exact hb
  have htproj : t < (projOf m x h ra)[b].length := by
    rw [hpseq _ (List.getElem_mem hbproj)]
    exact ht
  have hA : (preBlock m.numJoints (projOf m x h ra))[b][t] =
      (((projOf m x h ra).getD b []).getD t []).take (4 * m.numJoints) := by
    rw [List.getD_eq_getElem _ _ hbproj, List.getD_eq_getElem _ _ htproj]
    simp only [preBlock, List.getElem_map]
  have hB : (preBlock m.numJoints (origSliced x ra))[b][t] =
      ((x.getD b []).getD (if ra then t else T - 1) []).take
        (4 * m.numJoints) := by
    have hxblen : x[b].length = T := hxt _ (List.getElem_mem hb)
    cases ra with
    | true =>
      have htT : t < T := by simpa using ht
      have htx : t < x[b].length := by
        rw [hxblen]
        exact htT
      rw [if_pos rfl, List.getD_eq_getElem _ _ hb,
        List.getD_eq_getElem _ _ htx]
      simp [preBlock, origSliced]
    | false =>
      have ht0 : t = 0 := by
        simp only [if_neg Bool.false_ne_true] at ht
        omega
      subst ht0
      have hidx : T - 1 < x[b].length := by
        rw [hxblen]
        omega
      rw [if_neg (by simp), List.getD_eq_getElem _ _ hb,
        List.getD_eq_getElem _ _ hidx]
      simp [preBlock, origSliced, List.getElem_drop, hxblen]
  rw [hA, hB, drop_take_take _ (by omega), drop_take_take _ (by omega)]

/-- C2 counterexample: in velocity mode with an identically-zero output
layer, the composed quaternion degenerates to the zero 4-vector and the
renormalized result is the zero 4-vector — its norm is 0, not 1, so the
claim's unconditional "renormalized result has unit norm" clause fails. -/
theorem c2_counterexample :
    composedFlat cmVelZero cxId none false = [[(0 : ℝ), 0, 0, 0]] ∧
    normalizeRow [(0 : ℝ), 0, 0, 0] = [0, 0, 0, 0] ∧
    l2norm [(0 : ℝ), 0, 0, 0] ≠ 1 := by
  refine ⟨?_, by simp [normalizeRow], ?_⟩
  · simp only [composedFlat, projOf, projStage, controlsStage, hInOf,
      expandH, cmVelZero, cxId, idRnn, preBlock, origSliced, flatQ, qmul]
    norm_num [Linear.apply, dot]
    have e1 : chunks 4 [(0 : ℝ), 0, 0, 0] = [[0, 0, 0, 0]] :=
      chunks_self (by norm_num) rfl
    have e2 : chunks 4 [(1 : ℝ), 0, 0, 0] = [[1, 0, 0, 0]] :=
      chunks_self (by norm_num) rfl
    simp [e1, e2]
    norm_num [qmul1]
  · have hs0 : sumSq [(0 : ℝ), 0, 0, 0] = 0 := by simp [sumSq]
    rw [l2norm, hs0, Real.sqrt_zero]
    norm_num

/-- Witness for C2 amended at a concrete velocity-mode model whose
predicted delta is `(0, 1, 0, 0)` and whose input quaternion is the
identity. -/
theorem c2_velocity_composition_witness :
    ((composedFlat cmVelUnit cxId none false).getD 0 [] =
      qmul1
        (((((projOf cmVelUnit cxId none false).getD 0 []).getD 0 []).drop
          (4 * 0)).take 4)
        ((((cxId.getD 0 []).getD (1 - 1) []).drop (4 * 0)).take 4)) ∧
    sumSq (normalizeRow
      ((composedFlat cmVelUnit cxId none false).getD 0 [])) = 1 := by
  have hcf : composedFlat cmVelUnit cxId none false =
      [[(0 : ℝ), 1, 0, 0]] := by
    simp only [composedFlat, projOf, projStage, controlsStage, hInOf,
      expandH, cmVelUnit, cxId, idRnn, preBlock, origSliced, flatQ, qmul]
    norm_num [Linear.apply, dot]
    have e1 : chunks 4 [(0 : ℝ), 1, 0, 0] = [[0, 1, 0, 0]] :=
      chunks_self (by norm_num) rfl
    have e2 : chunks 4 [(1 : ℝ), 0, 0, 0] = [[1, 0, 0, 0]] :=
      chunks_self (by norm_num) rfl
    simp [e1, e2]
    norm_num [qmul1]
  have happ := c2_velocity_composition cmVelUnit cxId none false 1
    (by omega)
    (by
      intro s hs
      rw [cxId, List.mem_singleton] at hs
      rw [hs]
      rfl)
    (by
      intro s hs r hr
      rw [cxId, List.mem_singleton] at hs
      subst hs
      rw [List.mem_singleton] at hr
      rw [hr]
      rfl)
    rfl rfl (fun a hh => rfl) rfl 0 0 0 (by simp [cxId]) (by simp)
    (by simp [cmVelUnit])
  have hl1 : l2norm [(0 : ℝ), 1, 0, 0] = 1 := by
    have hs : sumSq [(0 : ℝ), 1, 0, 0] = 1 := by simp [sumSq]
    rw [l2norm, hs, Real.sqrt_one]
  have heps : normEps ≤ l2norm
      ((composedFlat cmVelUnit cxId none false).getD 0 []) := by
    rw [hcf]
    simp only [List.getD_cons_zero]
    rw [hl1]
    norm_num [normEps]
  constructor
  · have h1 := happ.1
    simpa using h1
  · have h2 := happ.2
    simp only [show ((0 * (if false then 1 else 1) + 0) *
      cmVelUnit.numJoints + 0) = 0 by simp [cmVelUnit]] at h2
    exact h2 heps

/-! ## C8: the returned pre-normalization block -/

/-- C8: with `return_prenorm = True` the third returned value is the
rotation block (first `4*J` channels) of the linear projection's output,
taken before the velocity residual composition and before renormalization;
it does not depend on the `model_velocities` flag. -/
theorem c8_prenorm_block (m : QuaterNet) (x : Tensor3) (h : Option HState)
    (ra : Bool) :
    (forward m x h true ra).2.2 =
      some (preBlock m.numJoints (projOf m x h ra)) ∧
    ∀ b : Bool,
      (forward { m with modelVelocities := b } x h true ra).2.2 =
        (forward m x h true ra).2.2 := by
  constructor
  · rfl
  · intro b
    rfl

/-- C3: for quaternion batches `q` and `r` of identical shape with trailing
dimension 4, `multiply(q, r)` has the same shape, each row is the
single-quaternion product, and that product is exactly the component
formula `w = r_w q_w - r_x q_x - r_y q_y - r_z q_z`, `x = r_w q_x + r_x q_w
- r_y q_z + r_z q_y`, `y = r_w q_y + r_x q_z + r_y q_w - r_z q_x`,
`z = r_w q_z - r_x q_y + r_y q_x + r_z q_w` — no normalization applied. -/
theorem c3_qmul_formula (q r : List (List ℝ))
    (hlen : q.length = r.length)
    (hq : ∀ a ∈ q, a.length = 4) (hr : ∀ a ∈ r, a.length = 4) :
    (qmul q r).length = q.length ∧
    (∀ a ∈ qmul q r, a.length = 4) ∧
    (∀ i, i < q.length →
      (qmul q r).getD i [] = qmul1 (q.getD i []) (r.getD i [])) ∧
    (∀ qq rr : List ℝ,
      qmul1 qq rr =
        [ rr.getD 0 0 * qq.getD 0 0 - rr.getD 1 0 * qq.getD 1 0
            - rr.getD 2 0 * qq.getD 2 0 - rr.getD 3 0 * qq.getD 3 0,
          rr.getD 0 0 * qq.getD 1 0 + rr.getD 1 0 * qq.getD 0 0
            - rr.getD 2 0 * qq.getD 3 0 + rr.getD 3 0 * qq.getD 2 0,
          rr.getD 0 0 * qq.getD 2 0 + rr.getD 1 0 * qq.getD 3 0
            + rr.getD 2 0 * qq.getD 0 0 - rr.getD 3 0 * qq.getD 1 0,
          rr.getD 0 0 * qq.getD 3 0 - rr.getD 1 0 * qq.getD 2 0
            + rr.getD 2 0 * qq.getD 1 0 + rr.getD 3 0 * qq.getD 0 0 ]) := by
  refine ⟨?_, ?_, ?_, ?_⟩
  · simp [qmul, hlen]
  · intro a ha
    rw [qmul, List.mem_iff_getElem] at ha
    obtain ⟨i, hi, hget⟩ := ha
    rw [List.getElem_zipWith] at hget
    rw [← hget]
    rfl
  · intro i hi
    have hi2 : i < (qmul q r).length := by simp [qmul, hlen]; omega
    rw [List.getD_eq_getElem _ _ hi2,
      List.getD_eq_getElem _ _ hi, List.getD_eq_getElem _ _ (hlen ▸ hi)]
    simp [qmul, List.getElem_zipWith]
  · intro qq rr
    rfl

/-- Witness for C3 at concrete batches. -/
theorem c3_qmul_formula_witness :
    (qmul [[(1 : ℝ), 2, 3, 4]] [[(5 : ℝ), 6, 7, 8]]).length = 1 ∧
    (∀ a ∈ qmul [[(1 : ℝ), 2, 3, 4]] [[(5 : ℝ), 6, 7, 8]], a.length = 4) ∧
    (∀ i, i < ([[(1 : ℝ), 2, 3, 4]] : List (List ℝ)).length →
      (qmul [[(1 : ℝ), 2, 3, 4]] [[(5 : ℝ), 6, 7, 8]]).getD i [] =
        qmul1 (([[(1 : ℝ), 2, 3, 4]] : List (List ℝ)).getD i [])
          (([[(5 : ℝ), 6, 7, 8]] : List (List ℝ)).getD i [])) := by
  have h := c3_qmul_formula [[(1 : ℝ), 2, 3, 4]] [[(5 : ℝ), 6, 7, 8]]
    (by simp) (by simp) (by simp)
  exact ⟨h.1, h.2.1, h.2.2.1⟩

/-! ## C5: unrecognized Euler order is a hard failure -/

/-- C5: for every quaternion batch with trailing dimension 4, calling
`to_euler` with an order outside the six recognized values reaches the bare
`raise` and produces no output — there is no default-order fallback. -/
theorem c5_qeuler_unknown_order (q : List (List ℝ)) (order : String)
    (epsilon : ℝ) (hq : ∀ r ∈ q, r.length = 4)
    (ho : order ∉ (["xyz", "yzx", "zxy", "xzy", "yxz", "zyx"] : List String)) :
    qeuler q order epsilon = .error .runtimeRaise := by
  have hall : q.all (fun r => r.length == 4) = true := by
    rw [List.all_eq_true]
    intro r hrq
    exact Nat.beq_eq_true_eq (r.length) 4 |>.mpr (hq r hrq)
  simp only [List.mem_cons, List.not_mem_nil, or_false, not_or] at ho
  obtain ⟨h1, h2, h3, h4, h5, h6⟩ := ho
  simp [qeuler, hall, h1, h2, h3, h4, h5, h6]

/-- Witness for C5: the order `"abc"` is rejected. -/
theorem c5_qeuler_unknown_order_witness :
    qeuler [[(1 : ℝ), 0, 0, 0]] "abc" 0 = .error .runtimeRaise := by
  apply c5_qeuler_unknown_order
  · intro r hrq
    rw [List.mem_singleton] at hrq
    rw [hrq]
    rfl
  · decide

/-! ## C7: the zero-norm renormalization case -/

/-- C7 counterexample: the claim says the renormalization step divides by
zero on a zero rotation block.  In fact `F.normalize` divides by the norm
clamped from below by `eps = 1e-12`, so on the zero block the divisor is
`1e-12`, not `0`. -/
theorem c7_counterexample :
    normDivisor [(0 : ℝ), 0, 0, 0] = 1e-12 ∧ ((1e-12 : ℝ) ≠ 0) := by
  have h0 : sumSq [(0 : ℝ), 0, 0, 0] = 0 := by simp [sumSq]
  have hl : l2norm [(0 : ℝ), 0, 0, 0] = 0 := by rw [l2norm, h0, Real.sqrt_zero]
  constructor
  · rw [normDivisor, hl, normEps, max_eq_right (by norm_num)]
  · norm_num

/-- C7 amended: on a degenerate zero rotation block the renormalization
divides by the `eps` clamp `1e-12` (never by zero), and the result is the
zero 4-vector — not a unit quaternion. -/
theorem c7_zero_block_amended :
    normalizeRow [(0 : ℝ), 0, 0, 0] = [0, 0, 0, 0] ∧
    normDivisor [(0 : ℝ), 0, 0, 0] = normEps ∧
    normEps ≠ 0 ∧
    sumSq (normalizeRow [(0 : ℝ), 0, 0, 0]) = 0 := by
  have h0 : sumSq [(0 : ℝ), 0, 0, 0] = 0 := by simp [sumSq]
  have hl : l2norm [(0 : ℝ), 0, 0, 0] = 0 := by rw [l2norm, h0, Real.sqrt_zero]
  have hd : normDivisor [(0 : ℝ), 0, 0, 0] = normEps := by
    rw [normDivisor, hl, max_eq_right (le_of_lt normEps_pos)]
  have hn : normalizeRow [(0 : ℝ), 0, 0, 0] = [0, 0, 0, 0] := by
    simp [normalizeRow]
  refine ⟨hn, hd, ne_of_gt normEps_pos, ?_⟩
  rw [hn, h0]

/-! ## The quaternion-algebra bridge to Mathlib's quaternions -/

theorem eq_four_of_length {α : Type} {q : List α} (h : q.length = 4) :
    ∃ a b c d, q = [a, b, c, d] := by
  rcases q with _ | ⟨a, _ | ⟨b, _ | ⟨c, _ | ⟨d, _ | ⟨e, t⟩⟩⟩⟩⟩
  · simp at h
  · simp at h
  · simp at h
  · simp at h
  · exact ⟨a, b, c, d, rfl⟩
  · simp at h

theorem eq_three_of_length {α : Type} {q : List α} (h : q.length = 3) :
    ∃ a b c, q = [a, b, c] := by
  rcases q with _ | ⟨a, _ | ⟨b, _ | ⟨c, _ | ⟨d, t⟩⟩⟩⟩
  · simp at h
  · simp at h
  · simp at h
  · exact ⟨a, b, c, rfl⟩
  · simp at h

theorem getD_drop1 (l : List ℝ) (i : ℕ) : (l.drop 1).getD i 0 = l.getD (i + 1) 0 := by
  cases l with
  | nil => simp
  | cons a t => simp [List.getD_cons_succ]

/-- The code's `qmul` row formula is exactly Hamilton multiplication with
`q` as the left factor. -/
theorem toQ_qmul1 (q r : List ℝ) : toQ (qmul1 q r) = toQ q * toQ r := by
  apply Quaternion.ext <;>
    simp [toQ, qmul1, Quaternion.mul_re, Quaternion.mul_imI,
      Quaternion.mul_imJ, Quaternion.mul_imK] <;> ring

theorem normSq_toQ (q : List ℝ) :
    Quaternion.normSq (toQ q) =
      q.getD 0 0 ^ 2 + q.getD 1 0 ^ 2 + q.getD 2 0 ^ 2 + q.getD 3 0 ^ 2 := by
  simp [toQ, Quaternion.normSq_def']

theorem normSq_vecQ (v : List ℝ) :
    Quaternion.normSq (vecQ v) =
      v.getD 0 0 ^ 2 + v.getD 1 0 ^ 2 + v.getD 2 0 ^ 2 := by
  simp [vecQ, Quaternion.normSq_def']

theorem sumSq_eq_components {q : List ℝ} (h : q.length = 4) :
    sumSq q = q.getD 0 0 ^ 2 + q.getD 1 0 ^ 2 + q.getD 2 0 ^ 2 + q.getD 3 0 ^ 2 := by
  obtain ⟨a, b, c, d, rfl⟩ := eq_four_of_length h
  simp [sumSq]
  ring

theorem sumSq_eq_components3 {v : List ℝ} (h : v.length = 3) :
    sumSq v = v.getD 0 0 ^ 2 + v.getD 1 0 ^ 2 + v.getD 2 0 ^ 2 := by
  obtain ⟨a, b, c, rfl⟩ := eq_three_of_length h
  simp [sumSq]
  ring

/-- For a unit quaternion row, the optimized double-cross rotation formula
of `qrot` agrees with quaternion conjugation `q v q*`. -/
theorem vecQ_qrot1 {q : List ℝ} (v : List ℝ)
    (hq : q.getD 0 0 ^ 2 + q.getD 1 0 ^ 2 + q.getD 2 0 ^ 2 + q.getD 3 0 ^ 2 = 1) :
    vecQ (qrot1 q v) = toQ q * vecQ v * star (toQ q) := by
  apply Quaternion.ext
  · simp only [vecQ, toQ, qrot1, cross3, getD_drop1, List.getD_cons_zero,
      List.getD_cons_succ, Quaternion.mul_re, Quaternion.mul_imI,
      Quaternion.mul_imJ, Quaternion.mul_imK, Quaternion.star_re,
      Quaternion.star_imI, Quaternion.star_imJ, Quaternion.star_imK]
    ring
  · simp only [vecQ, toQ, qrot1, cross3, getD_drop1, List.getD_cons_zero,
      List.getD_cons_succ, Quaternion.mul_re, Quaternion.mul_imI,
      Quaternion.mul_imJ, Quaternion.mul_imK, Quaternion.star_re,
      Quaternion.star_imI, Quaternion.star_imJ, Quaternion.star_imK]
    linear_combination (-(v.getD 0 0)) * hq
  · simp only [vecQ, toQ, qrot1, cross3, getD_drop1, List.getD_cons_zero,
      List.getD_cons_succ, Quaternion.mul_re, Quaternion.mul_imI,
      Quaternion.mul_imJ, Quaternion.mul_imK, Quaternion.star_re,
      Quaternion.star_imI, Quaternion.star_imJ, Quaternion.star_imK]
    linear_combination (-(v.getD 1 0)) * hq
  · simp only [vecQ, toQ, qrot1, cross3, getD_drop1, List.getD_cons_zero,
      List.getD_cons_succ, Quaternion.mul_re, Quaternion.mul_imI,
      Quaternion.mul_imJ, Quaternion.mul_imK, Quaternion.star_re,
      Quaternion.star_imI, Quaternion.star_imJ, Quaternion.star_imK]
    linear_combination (-(v.getD 2 0)) * hq

theorem qrot1_length (q v : List ℝ) : (qrot1 q v).length = 3 := rfl

theorem vecQ_inj3 {a b : List ℝ} (ha : a.length = 3) (hb : b.length = 3)
    (h : vecQ a = vecQ b) : a = b := by
  obtain ⟨a0, a1, a2, rfl⟩ := eq_three_of_length ha
  obtain ⟨b0, b1, b2, rfl⟩ := eq_three_of_length hb
  have h1 := congrArg Quaternion.imI h
  have h2 := congrArg Quaternion.imJ h
  have h3 := congrArg Quaternion.imK h
  simp [vecQ] at h1 h2 h3
  simp [h1, h2, h3]

/-! ## C4: composition order of `qmul` under `qrot` -/

/-- C4 counterexample: the claim `rotate(multiply(q, r), v) = rotate(r,
rotate(q, v))` (product = r ∘ q) fails at the unit quaternions
`q = (3/5, 4/5, 0, 0)`, `r = (3/5, 0, 4/5, 0)` and `v = (0, 0, 1)`. -/
theorem c4_counterexample :
    l2norm [(3 : ℝ) / 5, 4 / 5, 0, 0] = 1 ∧
    l2norm [(3 : ℝ) / 5, 0, 4 / 5, 0] = 1 ∧
    qrot (qmul [[(3 : ℝ) / 5, 4 / 5, 0, 0]] [[(3 : ℝ) / 5, 0, 4 / 5, 0]])
        [[(0 : ℝ), 0, 1]] ≠
      qrot [[(3 : ℝ) / 5, 0, 4 / 5, 0]]
        (qrot [[(3 : ℝ) / 5, 4 / 5, 0, 0]] [[(0 : ℝ), 0, 1]]) := by
  have hs1 : sumSq [(3 : ℝ) / 5, 4 / 5, 0, 0] = 1 := by
    simp [sumSq]
    norm_num
  have hs2 : sumSq [(3 : ℝ) / 5, 0, 4 / 5, 0] = 1 := by
    simp [sumSq]
    norm_num
  refine ⟨by rw [l2norm, hs1, Real.sqrt_one], by rw [l2norm, hs2, Real.sqrt_one], ?_⟩
  simp only [qrot, qmul, List.zipWith_cons_cons, List.zipWith_nil_right,
    qmul1, qrot1, cross3, List.getD_cons_zero, List.getD_cons_succ,
    List.drop_succ_cons, List.drop_zero, ne_eq, List.cons.injEq, and_true]
  norm_num

/-- C4 amended: `multiply(q, r)` composes with `r` as the rotation applied
first and `q` as the outer (left) rotation — `product = q ∘ r`: for unit
quaternions `q`, `r` and any 3-vector `v`,
`rotate(multiply(q, r), v) = rotate(q, rotate(r, v))`. -/
theorem c4_qmul_composition (q r v : List ℝ)
    (hq4 : q.length = 4) (hr4 : r.length = 4) (hv3 : v.length = 3)
    (hq : l2norm q = 1) (hr : l2norm r = 1) :
    qrot (qmul [q] [r]) [v] = qrot [q] (qrot [r] [v]) := by
  have hsq : sumSq q = 1 := by rw [← l2norm_sq, hq, one_pow]
  have hsr : sumSq r = 1 := by rw [← l2norm_sq, hr, one_pow]
  have hcq := (sumSq_eq_components hq4) ▸ hsq
  have hcr := (sumSq_eq_components hr4) ▸ hsr
  have hnq : Quaternion.normSq (toQ q) = 1 := by rw [normSq_toQ]; exact hcq
  have hnr : Quaternion.normSq (toQ r) = 1 := by rw [normSq_toQ]; exact hcr
  have hcqr : (qmul1 q r).getD 0 0 ^ 2 + (qmul1 q r).getD 1 0 ^ 2 +
      (qmul1 q r).getD 2 0 ^ 2 + (qmul1 q r).getD 3 0 ^ 2 = 1 := by
    have : Quaternion.normSq (toQ (qmul1 q r)) = 1 := by
      rw [toQ_qmul1, map_mul, hnq, hnr, mul_one]
    rw [normSq_toQ] at this
    exact this
  simp only [qrot, qmul, List.zipWith_cons_cons, List.zipWith_nil_right]
  have key : qrot1 (qmul1 q r) v = qrot1 q (qrot1 r v) := by
    apply vecQ_inj3 (qrot1_length _ _) (qrot1_length _ _)
    rw [vecQ_qrot1 v hcqr, vecQ_qrot1 (qrot1 r v) hcq, vecQ_qrot1 v hcr,
      toQ_qmul1, star_mul]
    simp [mul_assoc]
  rw [key]

/-- Witness for C4 amended at concrete unit quaternions. -/
theorem c4_qmul_composition_witness :
    qrot (qmul [[(3 : ℝ) / 5, 4 / 5, 0, 0]] [[(3 : ℝ) / 5, 0, 4 / 5, 0]])
        [[(1 : ℝ), 2, 2]] =
      qrot [[(3 : ℝ) / 5, 4 / 5, 0, 0]]
        (qrot [[(3 : ℝ) / 5, 0, 4 / 5, 0]] [[(1 : ℝ), 2, 2]]) := by
  apply c4_qmul_composition
  · rfl
  · rfl
  · rfl
  · have hs1 : sumSq [(3 : ℝ) / 5, 4 / 5, 0, 0] = 1 := by
      simp [sumSq]
      norm_num
    rw [l2norm, hs1, Real.sqrt_one]
  · have hs2 : sumSq [(3 : ℝ) / 5, 0, 4 / 5, 0] = 1 := by
      simp [sumSq]
      norm_num
    rw [l2norm, hs2, Real.sqrt_one]

/-! ## C9: rotation by a unit quaternion preserves the L2 norm -/

theorem sumSq_qrot1 {q : List ℝ} (v : List ℝ) (hq4 : q.length = 4)
    (hv3 : v.length = 3) (hq : l2norm q = 1) :
    sumSq (qrot1 q v) = sumSq v := by
  have hsq : sumSq q = 1 := by rw [← l2norm_sq, hq, one_pow]
  have hcq := (sumSq_eq_components hq4) ▸ hsq
  have h1 : Quaternion.normSq (vecQ (qrot1 q v)) =
      Quaternion.normSq (vecQ v) := by
    rw [vecQ_qrot1 v hcq, map_mul, map_mul, Quaternion.normSq_star,
      normSq_toQ]
    rw [hcq]
    ring
  rw [normSq_vecQ, normSq_vecQ] at h1
  rw [sumSq_eq_components3 (qrot1_length q v), sumSq_eq_components3 hv3]
  exact h1

/-- C9: for every unit quaternion row of `q` and matching 3-vector row of
`v`, the rotated row returned by `rotate(q, v)` has the same L2 norm as the
input row. -/
theorem c9_qrot_preserves_norm (q v : List (List ℝ))
    (hlen : q.length = v.length)
    (hq : ∀ a ∈ q, a.length = 4 ∧ l2norm a = 1)
    (hv : ∀ a ∈ v, a.length = 3) :
    ∀ i, i < v.length →
      l2norm ((qrot q v).getD i []) = l2norm (v.getD i []) := by
  intro i hi
  have hiq : i < q.length := by omega
  have hi2 : i < (qrot q v).length := by simp [qrot, hlen]; omega
  rw [List.getD_eq_getElem _ _ hi2, List.getD_eq_getElem _ _ hi]
  have hrow : (qrot q v)[i] = qrot1 q[i] v[i] := by
    simp [qrot, List.getElem_zipWith]
  rw [hrow, l2norm, l2norm,
    sumSq_qrot1 v[i] ((hq q[i] (List.getElem_mem hiq)).1)
      (hv v[i] (List.getElem_mem hi)) ((hq q[i] (List.getElem_mem hiq)).2)]

/-- Witness for C9 at a concrete unit quaternion and vector. -/
theorem c9_qrot_preserves_norm_witness :
    l2norm ((qrot [[(3 : ℝ) / 5, 0, 4 / 5, 0]] [[(1 : ℝ), 2, 2]]).getD 0 []) =
      l2norm (([[(1 : ℝ), 2, 2]] : List (List ℝ)).getD 0 []) := by
  apply c9_qrot_preserves_norm
  · rfl
  · intro a ha
    rw [List.mem_singleton] at ha
    subst ha
    refine ⟨rfl, ?_⟩
    have hs : sumSq [(3 : ℝ) / 5, 0, 4 / 5, 0] = 1 := by
      simp [sumSq]
      norm_num
    rw [l2norm, hs, Real.sqrt_one]
  · intro a ha
    rw [List.mem_singleton] at ha
    subst ha
    rfl
  · norm_num

/-! ## C10: the fixed architecture constants of `__init__` -/

/-- C10: every constructed QuaterNet has hidden size 1000 and 2 recurrent
layers; whenever `num_controls > 0` the processed control block has width
exactly 30 (independent of `num_controls`), so the recurrent input width is
`4*num_joints + num_outputs + 30`. -/
theorem c10_init_constants (J O C : ℕ) (mv : Bool) :
    (quaterNetInit J O C mv).hiddenSize = 1000 ∧
    (quaterNetInit J O C mv).rnnLayers = 2 ∧
    (0 < C → (quaterNetInit J O C mv).fc2Size = 30 ∧
      (quaterNetInit J O C mv).rnnInputSize = 4 * J + O + 30) := by
  refine ⟨rfl, rfl, fun hC => ?_⟩
  constructor
  · simp [quaterNetInit, hC]
  · simp [quaterNetInit, hC]

/-- Witness for C10 at `J = 32`, `O = 2`, `C = 5`. -/
theorem c10_init_constants_witness :
    (quaterNetInit 32 2 5 true).hiddenSize = 1000 ∧
    (quaterNetInit 32 2 5 true).rnnLayers = 2 ∧
    (quaterNetInit 32 2 5 true).fc2Size = 30 ∧
    (quaterNetInit 32 2 5 true).rnnInputSize = 4 * 32 + 2 + 30 := by
  have h := c10_init_constants 32 2 5 true
  exact ⟨h.1, h.2.1, (h.2.2 (by norm_num)).1, (h.2.2 (by norm_num)).2⟩

end

